import Mathlib

/-!
# A verification model of the deterministic linear gauge engine

This file embeds the gauge library (`gauge.py`) in Lean 4 and proves, or
refutes, the frozen claims about it.  The embedding is shallow:

* Python floats are modelled as rationals (ℚ); every scenario of the
  specification uses exact dyadic values, on which IEEE-754 doubles and ℚ
  agree.  The values `float('inf')` / `float('-inf')` used for times are
  modelled by the extended type `XR` below.
* The mutating methods of the `Gauge` class become pure functions
  `Gauge → … → Gauge`; methods that raise become `Except Err …` with the
  error vocabulary of the specification (`OutOfRange`, `BadMomentum`,
  `NotFound`, `Unreachable`).
* The generator `Gauge.determine` becomes a fuelled recursive function
  (`innerLoop` / `outerLoop`); the fuel is chosen large enough for every
  terminating run (each inner iteration either consumes a boundary line or
  is one of a bounded number of rebind steps), and all order-invariants are
  proved for every fuel value.
* Hyper-gauge nesting (a gauge used as a bound) is modelled at the depth
  exercised by the specification's scenarios and claims: a bound is either
  a scalar or a gauge whose own bounds are scalars (`Gauge0`).
-/

namespace GaugeModel

/-! ## Extended rationals: ℚ together with `-inf` and `+inf`

Python code compares times with `float('inf')` / `float('-inf')`.  `XR`
mirrors exactly those comparisons; arithmetic is only ever performed on
finite values (the source checks `== +inf` before using a time in
arithmetic), extracted by `XR.toq`. -/

inductive XR : Type where
  | ninf : XR
  | fin (q : ℚ) : XR
  | pinf : XR
  deriving DecidableEq, Repr

namespace XR

/-- `a <= b` on extended rationals, as Python's float comparison. -/
def leb : XR → XR → Bool
  | .ninf, _ => true
  | _, .pinf => true
  | .fin a, .fin b => decide (a ≤ b)
  | _, _ => false

/-- `a < b` on extended rationals. -/
def ltb (a b : XR) : Bool := !(leb b a)

/-- Python's two-argument `min` (returns the first argument on ties). -/
def minx (a b : XR) : XR := if leb a b then a else b

/-- Python's two-argument `max` (returns the first argument on ties). -/
def maxx (a b : XR) : XR := if leb b a then a else b

/-- The finite part; junk value `0` on infinities (used only under guards
that exclude the infinite cases, mirroring the source's `== +inf` tests). -/
def toq : XR → ℚ
  | .fin q => q
  | _ => 0

end XR

/-- Python's two-argument `min` on values (spelled out so that the kernel
can evaluate it; the library `min` on ℚ reduces through instances built
with choice). -/
def qmin (a b : ℚ) : ℚ := if a ≤ b then a else b

/-- Python's two-argument `max` on values. -/
def qmax (a b : ℚ) : ℚ := if b ≤ a then a else b

/-! ## Momentum

`Momentum(velocity, since, until)`, an immutable named tuple; equal iff all
three fields compare equal (`until` is spelled `until_` because it is a
Lean keyword). -/

structure Momentum where
  velocity : ℚ
  since : XR
  until_ : XR
  deriving DecidableEq, Repr

/-- Lexicographic strict order on momenta, as Python compares the named
tuples `(velocity, since, until)`. -/
def Momentum.ltb (a b : Momentum) : Bool :=
  if a.velocity = b.velocity then
    if a.since = b.since then XR.ltb a.until_ b.until_
    else XR.ltb a.since b.since
  else decide (a.velocity < b.velocity)

/-- `_make_momentum`'s validity test:
`since == -inf or until == +inf or since < until`. -/
def validMomentum (m : Momentum) : Bool :=
  m.since == XR.ninf || m.until_ == XR.pinf || XR.ltb m.since m.until_

/-! ## Line primitives

`Line = Horizon | Ray | Segment` with the operations `get`, `guess`,
`intercept` and `intersect` of the source.  A `Segment`'s `until` is always
finite (it is built from two determination vertices); `Horizon` and `Ray`
may extend to `+inf`. -/

inductive Line : Type where
  | Horizon (since : ℚ) (until_ : XR) (value : ℚ)
  | Ray (since : ℚ) (until_ : XR) (value velocity : ℚ)
  | Segment (since until_ : ℚ) (value final : ℚ)
  deriving DecidableEq, Repr

namespace Line

def since : Line → ℚ
  | .Horizon s _ _ => s
  | .Ray s _ _ _ => s
  | .Segment s _ _ _ => s

def untilx : Line → XR
  | .Horizon _ u _ => u
  | .Ray _ u _ _ => u
  | .Segment _ u _ _ => .fin u

def value : Line → ℚ
  | .Horizon _ _ v => v
  | .Ray _ _ v _ => v
  | .Segment _ _ v _ => v

def velocity : Line → ℚ
  | .Horizon _ _ _ => 0
  | .Ray _ _ _ vel => vel
  | .Segment s u v f => (f - v) / (u - s)

/-- `Line.get` without the time-range assertion: the determiner only calls
`get` at times it has already clamped into the line's range (the source
would raise `ValueError` otherwise, which never happens on reachable
states). -/
def getq : Line → ℚ → ℚ
  | .Horizon _ _ v, _ => v
  | .Ray s _ v vel, t => v + vel * (t - s)
  | .Segment s u v f, t =>
      if t = s then v
      else if t = u then f
      else v + (t - s) / (u - s) * (f - v)

/-- `_earlier`: the constant extrapolation before `since` (all three
subclasses return `value`). -/
def earlier (l : Line) (_t : ℚ) : ℚ := l.value

/-- `_later`: the constant extrapolation after `until`. -/
def later : Line → ℚ → ℚ
  | .Horizon _ _ v, _ => v
  | .Ray s u v vel, _ => v + vel * (u.toq - s)
  | .Segment _ _ _ f, _ => f

/-- `Line.guess`: evaluate, extrapolating as a constant outside the time
range. -/
def guess (l : Line) (t : ℚ) : ℚ :=
  if t < l.since then l.earlier t
  else if XR.ltb l.untilx (.fin t) then l.later t
  else l.getq t

/-- The value-intercept (Y-intercept). -/
def intercept (l : Line) : ℚ := l.value - l.velocity * l.since

/-- `Line.intersect`: `none` both for parallel lines (the source's
`ZeroDivisionError` → "Parallel line given") and for an intersection
outside the common time range (the source's second `ValueError`). -/
def intersect (l1 l2 : Line) : Option (ℚ × ℚ) :=
  let vd := l1.velocity - l2.velocity
  if vd = 0 then none
  else
    let t := (l2.intercept - l1.intercept) / vd
    let s := qmax l1.since l2.since
    let u := XR.minx l1.untilx l2.untilx
    if decide (s ≤ t) && XR.leb (.fin t) u then some (t, l1.getq t) else none

end Line

/-! ## Boundary cursor

A `Boundary` holds the current line, the remaining lines of the lazy
stream, and the comparison polarity (`ceil = true` for `operator.lt`,
`false` for `operator.gt`).  `best` is `min` for a ceiling and `max` for a
floor. -/

structure Boundary where
  line : Line
  rest : List Line
  ceil : Bool
  deriving DecidableEq, Repr

namespace Boundary

def cmp (b : Boundary) (x y : ℚ) : Bool :=
  if b.ceil then decide (x < y) else decide (x > y)

def best (b : Boundary) (x y : ℚ) : ℚ :=
  if b.ceil then qmin x y else qmax x y

def cmp_eq (b : Boundary) (x y : ℚ) : Bool := x == y || b.cmp x y

/-- Advance to the next line.  On an exhausted stream the source would
raise `StopIteration`; the streams built by `walk_lines` always end with a
`+inf` horizon, so that case is unreachable and modelled as a no-op. -/
def walk (b : Boundary) : Boundary :=
  match b.rest with
  | [] => b
  | l :: ls => { b with line := l, rest := ls }

end Boundary

/-- `Boundary.__init__` pulls the first line of the stream. -/
def mkBoundary (lines : List Line) (c : Bool) : Boundary :=
  match lines with
  | [] => { line := Line.Horizon 0 .pinf 0, rest := [], ceil := c }
  | l :: ls => { line := l, rest := ls, ceil := c }

/-- The initial `while boundary.line.until <= since: boundary.walk()` of
`determine`. -/
def skipGo (since : ℚ) (c : Bool) (line : Line) : List Line → Boundary
  | [] => { line := line, rest := [], ceil := c }
  | l :: ls =>
      if XR.leb line.untilx (.fin since) then skipGo since c l ls
      else { line := line, rest := l :: ls, ceil := c }

def Boundary.skipPast (b : Boundary) (since : ℚ) : Boundary :=
  skipGo since b.ceil b.line b.rest

/-! ## The determiner

The state carried through `Gauge.determine`'s loops.  `bound` names the
tracked boundary (`some true` = ceiling, `some false` = floor); when it is
set, `overlapped` tells riding along the boundary apart from having
overshot it at the anchor.  `velocity` is the last net velocity computed in
the inner loop (used by the final per-event vertex). -/

structure DetS where
  since : ℚ
  value : ℚ
  velocity : ℚ
  velocities : List ℚ
  ceil : Boundary
  floor : Boundary
  bound : Option Bool
  overlapped : Bool
  deriving DecidableEq, Repr

namespace DetS

def getB (s : DetS) (w : Bool) : Boundary := if w then s.ceil else s.floor

def setB (s : DetS) (w : Bool) (b : Boundary) : DetS :=
  if w then { s with ceil := b } else { s with floor := b }

end DetS

/-- The net velocity of the current inner-loop iteration:
free → `Σ velocities`; riding → `best(Σ, boundary slope)`; overshot →
only the velocities directed toward the feasible side. -/
def calcVelocity (s : DetS) : ℚ :=
  match s.bound with
  | none => s.velocities.sum
  | some w =>
      if s.overlapped then
        (s.getB w).best s.velocities.sum (s.getB w).line.velocity
      else (s.velocities.filter (fun v => (s.getB w).cmp v 0)).sum

/-- The release test `overlapped and bound.cmp(velocity, bound.line.velocity)`. -/
def releaseCheck (s : DetS) (vel : ℚ) : Bool :=
  match s.bound with
  | some w => s.overlapped && (s.getB w).cmp vel ((s.getB w).line.velocity)
  | none => false

/-- The `for boundary in walked_boundaries: line.intersect(boundary.line)`
search; an intersection exactly at `since` is skipped, and a failed
intersection (parallel or out of range) moves to the next boundary. -/
def findIntersect (s : DetS) (line : Line) : List Bool → Option (Bool × ℚ × ℚ)
  | [] => none
  | w :: ws =>
      match line.intersect (s.getB w).line with
      | some (t, v) =>
          if t = s.since then findIntersect s line ws else some (w, t, v)
      | none => findIntersect s line ws

/-- The floating-point fallback: a boundary whose value at
`min(line.until, until)` is strictly on the wrong side of the free ray
(`cmp_eq` fails) is a missed crossing; snap to it. -/
def findFallback (s : DetS) (line : Line) (u : XR) :
    List Bool → Option (Bool × ℚ × ℚ)
  | [] => none
  | w :: ws =>
      match XR.minx ((s.getB w).line.untilx) u with
      | .pinf => findFallback s line u ws
      | .ninf => findFallback s line u ws
      | .fin buq =>
          if buq < s.since then findFallback s line u ws
          else if (s.getB w).cmp_eq (line.getq buq) ((s.getB w).line.getq buq) then
            findFallback s line u ws
          else some (w, buq, (s.getB w).line.getq buq)

/-- The outcome of one iteration of the inner loop: `stop` breaks out of
the loop, `cont` continues with an optional vertex to yield and the next
value of the `again` flag. -/
inductive StepRes : Type where
  | stop (s : DetS) : StepRes
  | cont (y : Option (ℚ × ℚ)) (s : DetS) (again : Bool) : StepRes
  deriving DecidableEq, Repr

/-- One iteration of the `while since < until` loop of `determine` (taken
with `since < until` already known to hold):

1. choose the walked boundaries (both on an `again` iteration; otherwise
   break if every boundary reaches `until`, else advance the one ending
   first);
2. compute the net velocity;
3. release test: while riding, a net velocity strictly inside the feasible
   side peels off the boundary;
4. while riding, emit the boundary point at `min(bound.until, until)`
   (breaking at `+inf`);
5. otherwise look for an intersection with a walked boundary (skipping
   `t = since`), clamp by the boundary and start riding;
6. otherwise, if still unbound, the `cmp_eq` fallback snaps a missed
   crossing;
7. otherwise continue (the next iteration walks or breaks).

`rideStep` and `freeStep` below are steps 4 and 5-7; `stepCore` is 2-7 and
`innerStep` adds the boundary choice 1. -/
def rideStep (u : XR) (w : Bool) (s2 : DetS) : StepRes :=
  match XR.minx ((s2.getB w).line.untilx) u with
  | .pinf => .stop s2
  | .ninf => .stop s2  -- unreachable on walk_lines streams
  | .fin buq =>
      .cont (some (buq, (s2.getB w).line.getq buq))
        { s2 with since := buq, value := (s2.getB w).line.getq buq } false

/-- The free sub-steps (5-7 above): intersection search, then (when still
unbound) the floating-point fallback. -/
def freeStep (u : XR) (walked : List Bool) (s2 : DetS) : StepRes :=
  let line := Line.Ray s2.since u s2.value s2.velocity
  match findIntersect s2 line walked with
  | some (w, t, v) =>
      .cont (some (t, (s2.getB w).best v ((s2.getB w).line.guess t)))
        { s2 with bound := some w, overlapped := true, since := t,
                  value := (s2.getB w).best v ((s2.getB w).line.guess t) }
        true
  | none =>
      if s2.bound.isSome then .cont none s2 false
      else
        match findFallback s2 line u walked with
        | some (w, buq, bv) =>
            .cont (some (buq, bv))
              { s2 with bound := some w, overlapped := true, since := buq,
                        value := bv }
              false
        | none => .cont none s2 false

/-- Steps 3-7 after the velocity has been stored in the state. -/
def stepRest (u : XR) (walked : List Bool) (s2 : DetS) : StepRes :=
  if releaseCheck s2 s2.velocity then
    .cont none { s2 with bound := none, overlapped := false } true
  else if s2.overlapped then
    match s2.bound with
    | none => .stop s2  -- unreachable: overlapped implies a bound
    | some w => rideStep u w s2
  else freeStep u walked s2

def stepCore (u : XR) (walked : List Bool) (s1 : DetS) : StepRes :=
  stepRest u walked { s1 with velocity := calcVelocity s1 }

def innerStep (s : DetS) (u : XR) (again : Bool) : StepRes :=
  if again then stepCore u [true, false] s
  else if XR.leb u s.ceil.line.untilx && XR.leb u s.floor.line.untilx then
    .stop s
  else
    let w := XR.leb s.ceil.line.untilx s.floor.line.untilx
    stepCore u [w] (s.setB w ((s.getB w).walk))

/-- One event's `while since < until` loop, fuelled.  Returns the vertices
yielded inside the loop and the state at exit.  The fuel passed by
`determineL` is large enough for every terminating run; on fuel
exhaustion (unreachable there) the bound is cleared, which keeps the
state invariants without affecting any run that terminates within its
fuel. -/
def innerLoop : ℕ → DetS → XR → Bool → List (ℚ × ℚ) × DetS
  | 0, s, _, _ => ([], { s with bound := none, overlapped := false })
  | fuel + 1, s, u, again =>
    if XR.ltb (.fin s.since) u then
      match innerStep s u again with
      | .stop s' => ([], s')
      | .cont y s' again' =>
        let r := innerLoop fuel s' u again'
        (y.toList ++ r.1, r.2)
    else ([], s)

/-- The event loop of `determine`: for each event, run the inner loop up to
the normalized event time, emit the final vertex, apply the velocity
change, and move the anchor.  The `+inf` sentinel stops the walk. -/
def outerLoop (t0 : ℚ) (fuel : ℕ) :
    List (XR × Int × Momentum) → DetS → List (ℚ × ℚ)
  | [], _ => []
  | (time, method, m) :: rest, s =>
    let u := XR.maxx time (.fin t0)
    let r := innerLoop fuel s u true
    match u with
    | .pinf => r.1
    | .ninf => r.1  -- unreachable: `max(time, t0)` is never `-inf`
    | .fin uq =>
      let value2 := r.2.value + r.2.velocity * (uq - r.2.since)
      let vels2 :=
        if method = 1 then r.2.velocities ++ [m.velocity]
        else if method = -1 then r.2.velocities.erase m.velocity
        else r.2.velocities
      r.1 ++ (uq, value2) ::
        outerLoop t0 fuel rest
          { r.2 with since := uq, value := value2, velocities := vels2 }

/-- The initialization phase of `determine`: skip past boundary lines and
detect an initially-overshot boundary (ceiling checked first). -/
def initDetS (base : ℚ × ℚ) (ceilLines floorLines : List Line) : DetS :=
  let ceil := (mkBoundary ceilLines true).skipPast base.1
  let floor := (mkBoundary floorLines false).skipPast base.1
  let bound :=
    if ceil.cmp (ceil.line.guess base.1) base.2 then some true
    else if floor.cmp (floor.line.guess base.1) base.2 then some false
    else none
  { since := base.1, value := base.2, velocity := 0, velocities := [],
    ceil := ceil, floor := floor, bound := bound, overlapped := false }

/-- `Gauge.determine` on explicit boundary line streams and walked events.
The fuel bound covers every terminating run: each inner iteration either
consumes a line of a stream or belongs to a bounded burst of
release/rebind steps. -/
def determineL (base : ℚ × ℚ) (events : List (XR × Int × Momentum))
    (ceilLines floorLines : List Line) : List (ℚ × ℚ) :=
  let fuel := 8 * (ceilLines.length + floorLines.length + 4)
  outerLoop base.1 fuel events (initDetS base ceilLines floorLines)

/-! ## The event log and the momentum list

`_events` is a `SortedList` of `(time, ADD|REMOVE, momentum)` triples
compared lexicographically (`ADD = +1`, `REMOVE = -1`); `momenta` is a
`SortedListWithKey` keyed by `until`.  Both `add` operations insert after
equal keys (`bisect_right`), which the strict-order insertions below
reproduce. -/

/-- An event: `(time, method, momentum)`, with `method ∈ {1, -1}` for
`ADD`/`REMOVE` and `0` for the two sentinels of `walk_events`. -/
abbrev Ev : Type := XR × Int × Momentum

/-- Lexicographic order of `_events` entries. -/
def eventLtb (a b : Ev) : Bool :=
  if a.1 = b.1 then
    if a.2.1 = b.2.1 then Momentum.ltb a.2.2 b.2.2
    else decide (a.2.1 < b.2.1)
  else XR.ltb a.1 b.1

/-- `SortedList.add`: insert keeping the lexicographic order (after equal
entries). -/
def insertEvent (e : Ev) : List Ev → List Ev
  | [] => [e]
  | x :: xs => if eventLtb e x then e :: x :: xs else x :: insertEvent e xs

/-- `SortedListWithKey(key=until).add`: insert keeping the until-order
(after equal keys). -/
def insertMomentum (m : Momentum) : List Momentum → List Momentum
  | [] => [m]
  | x :: xs =>
      if XR.ltb m.until_ x.until_ then m :: x :: xs else x :: insertMomentum m xs

/-- The placeholder momentum of the sentinel events (`None` in the
source). -/
def dummyM : Momentum := ⟨0, .ninf, .pinf⟩

/-- `Gauge.walk_events` as a pure function of the stored event log and the
momentum multiset: the base-time sentinel, then the logged events whose
momentum is still a member of `momenta` (stale entries are dropped), then
the `+inf` sentinel. -/
def walkEventsL (t0 : ℚ) (events : List Ev) (momenta : List Momentum) :
    List Ev :=
  (.fin t0, 0, dummyM) ::
    events.filter (fun e => momenta.contains e.2.2) ++ [(.pinf, 0, dummyM)]

/-! ## Gauges

`Gauge0` is a gauge whose two limits are scalars; a `Limit` is a scalar or
such a gauge; `Gauge` is the full facade.  This models hyper-gauge nesting
at the depth the specification's scenarios and claims exercise. -/

structure Gauge0 where
  base : ℚ × ℚ
  momenta : List Momentum
  events : List Ev
  maxq : ℚ
  minq : ℚ
  deriving DecidableEq, Repr

/-- A bound: a number or a gauge. -/
inductive Limit : Type where
  | scalar (q : ℚ) : Limit
  | gauge (g : Gauge0) : Limit
  deriving DecidableEq, Repr

structure Gauge where
  base : ℚ × ℚ
  momenta : List Momentum
  events : List Ev
  maxl : Limit
  minl : Limit
  deriving DecidableEq, Repr

/-- The `if prev_time == time: continue` deduplication performed while
caching a determination. -/
def dedupFrom : Option ℚ → List (ℚ × ℚ) → List (ℚ × ℚ)
  | _, [] => []
  | prev, p :: rest =>
      if prev = some p.1 then dedupFrom prev rest
      else p :: dedupFrom (some p.1) rest

/-- `Gauge.walk_lines` on a gauge's (already computed) determination:
an optional leading horizon, a segment per consecutive vertex pair, and a
trailing `+inf` horizon. -/
def linesFromDet (t0 : ℚ) (det : List (ℚ × ℚ)) : List Line :=
  match det with
  | [] => []  -- unreachable: determinations are never empty
  | first :: _ =>
    let last := det.getLastD first
    (if t0 < first.1 then [Line.Horizon t0 (.fin first.1) first.2] else []) ++
      ((det.zip det.tail).map fun pq =>
        Line.Segment pq.1.1 pq.2.1 pq.1.2 pq.2.2) ++
      [Line.Horizon last.1 .pinf last.2]

/-- The determination of a scalar-bounded gauge (cached property
`Gauge.determination`: determine, then deduplicate equal adjacent
times). -/
def Gauge0.determination (g : Gauge0) : List (ℚ × ℚ) :=
  dedupFrom none
    (determineL g.base (walkEventsL g.base.1 g.events g.momenta)
      [Line.Horizon g.base.1 .pinf g.maxq] [Line.Horizon g.base.1 .pinf g.minq])

/-- `Gauge.walk_lines(number_or_gauge)`. -/
def Limit.walk_lines (t0 : ℚ) : Limit → List Line
  | .scalar q => [Line.Horizon t0 .pinf q]
  | .gauge g => linesFromDet t0 g.determination

/-- The cached determination of a gauge. -/
def Gauge.determination (g : Gauge) : List (ℚ × ℚ) :=
  dedupFrom none
    (determineL g.base (walkEventsL g.base.1 g.events g.momenta)
      (g.maxl.walk_lines g.base.1) (g.minl.walk_lines g.base.1))

/-! ## Reading a gauge: `get` and `velocity` -/

/-- `bisect_left(determination, (at,))` on a time-sorted determination:
the number of vertices with time strictly below `t`. -/
def bisectTimes (t : ℚ) : List (ℚ × ℚ) → ℕ
  | [] => 0
  | p :: rest => if p.1 < t then bisectTimes t rest + 1 else 0

/-- `Gauge._value_and_velocity` on a determination list. -/
def vvFromDet (d : List (ℚ × ℚ)) (t : ℚ) : ℚ × ℚ :=
  let x := if d.length = 1 then 0 else bisectTimes t d
  if x = 0 then ((d.headD (0, 0)).2, 0)
  else
    match d.get? x with
    | none => ((d.getLastD (0, 0)).2, 0)
    | some q =>
      match d.get? (x - 1) with
      | none => ((d.getLastD (0, 0)).2, 0)  -- unreachable: x ≥ 1
      | some p =>
        let seg := Line.Segment p.1 q.1 p.2 q.2
        (seg.getq t, seg.velocity)

def Gauge0.get (g : Gauge0) (t : ℚ) : ℚ := (vvFromDet g.determination t).1

def Gauge.get (g : Gauge) (t : ℚ) : ℚ := (vvFromDet g.determination t).1

def Gauge.velocity (g : Gauge) (t : ℚ) : ℚ := (vvFromDet g.determination t).2

/-- `_get_limit`: a scalar bound is itself, a gauge bound is read at `t`. -/
def Gauge.get_max (g : Gauge) (t : ℚ) : ℚ :=
  match g.maxl with
  | .scalar q => q
  | .gauge g0 => g0.get t

def Gauge.get_min (g : Gauge) (t : ℚ) : ℚ :=
  match g.minl with
  | .scalar q => q
  | .gauge g0 => g0.get t

/-! ## Mutations -/

/-- The error vocabulary of the specification (§7).  The source raises
`ValueError`/`TypeError` with distinguishing messages. -/
inductive Err : Type where
  | outOfRange : Err
  | badMomentum : Err
  | badMomentumArgs : Err
  | notFound : Err
  | unreachable : Err
  deriving DecidableEq, Repr

/-- Equality of `Except` results is decidable (used to evaluate concrete
method calls). -/
instance {ε α : Type} [DecidableEq ε] [DecidableEq α] :
    DecidableEq (Except ε α) := fun a b =>
  match a, b with
  | .error e, .error f =>
      if h : e = f then .isTrue (by rw [h]) else .isFalse (by simp [h])
  | .error _, .ok _ => .isFalse (by simp)
  | .ok _, .error _ => .isFalse (by simp)
  | .ok x, .ok y =>
      if h : x = y then .isTrue (by rw [h]) else .isFalse (by simp [h])

/-- `Gauge.forget_past(value, at)`: rebase to `(at, value)` and delete the
slice of the until-sorted momentum list strictly between key `-inf` and
key `at` (i.e. the momenta with `-inf < until < at`); the filter below is
that slice deletion, expressed multiset-wise. -/
def Gauge.forget_past (g : Gauge) (value : ℚ) (t : ℚ) : Gauge :=
  { g with base := (t, value),
           momenta := g.momenta.filter fun m =>
             !(XR.ltb .ninf m.until_ && XR.ltb m.until_ (.fin t)) }

/-- `Gauge.incr(delta, over, clamp, at)`. -/
def Gauge.incr (g : Gauge) (delta : ℚ) (over clamp : Bool) (t : ℚ) :
    Except Err (Gauge × ℚ) :=
  let prev := g.get t
  let value := prev + delta
  let mx := g.get_max t
  let mn := g.get_min t
  if over then .ok (g.forget_past value t, value)
  else if clamp then
    let v2 :=
      if delta > 0 ∧ value > mx then qmax prev mx
      else if delta < 0 ∧ value < mn then qmin prev mn
      else value
    .ok (g.forget_past v2 t, v2)
  else if delta > 0 ∧ value > mx then .error .outOfRange
  else if delta < 0 ∧ value < mn then .error .outOfRange
  else .ok (g.forget_past value t, value)

/-- `Gauge.add_momentum(m)` (the `Momentum`-object form of
`_make_momentum`; an invalid period is `BadMomentum`). -/
def Gauge.add_momentum (g : Gauge) (m : Momentum) : Except Err Gauge :=
  if validMomentum m then
    let es1 := insertEvent (m.since, 1, m) g.events
    let es2 := if m.until_ == XR.pinf then es1
               else insertEvent (m.until_, -1, m) es1
    .ok { g with momenta := insertMomentum m g.momenta, events := es2 }
  else .error .badMomentum

/-- `Gauge.remove_momentum(m)`: remove exactly one equal entry from the
momentum multiset (the event log is left untouched; `walk_events` filters
the stale entries). -/
def Gauge.remove_momentum (g : Gauge) (m : Momentum) : Except Err Gauge :=
  if validMomentum m then
    if g.momenta.contains m then .ok { g with momenta := g.momenta.erase m }
    else .error .notFound
  else .error .badMomentum

/-! ## Goal crossings: `whenever` and `when` -/

/-- `Gauge.whenever(value)`: the first vertex's time when its value equals
the goal, then one interpolated time per consecutive vertex pair that
half-openly crosses the goal. -/
def Gauge.whenever (g : Gauge) (value : ℚ) : List ℚ :=
  match g.determination with
  | [] => []
  | (ft, fv) :: _ =>
    let d := g.determination
    (if fv = value then [ft] else []) ++
      (d.zip d.tail).filterMap fun pq =>
        let t1 := pq.1.1; let v1 := pq.1.2
        let t2 := pq.2.1; let v2 := pq.2.2
        if (v1 < value ∧ value ≤ v2) ∨ (v1 > value ∧ value ≥ v2) then
          some (t1 + (t2 - t1) * ((value - v1) / (v2 - v1)))
        else none

/-- The `for x, at in enumerate(whenever): if x == after: return at` loop
of `Gauge.when`. -/
def whenFrom (x after : ℕ) : List ℚ → Except Err ℚ
  | [] => .error .unreachable
  | t :: rest => if x = after then .ok t else whenFrom (x + 1) after rest

/-- `Gauge.when(value, after)`. -/
def Gauge.when (g : Gauge) (value : ℚ) (after : ℕ) : Except Err ℚ :=
  whenFrom 0 after (g.whenever value)

/-! ## Well-formedness

Every gauge built through the API keeps `_events` sorted; the order
theorems only need the event times to be nondecreasing, in this gauge and
in any gauge used as one of its bounds. -/

/-- The event times are nondecreasing. -/
def timesSortedB : List Ev → Bool
  | [] => true
  | [_] => true
  | a :: b :: rest => XR.leb a.1 b.1 && timesSortedB (b :: rest)

def Limit.wfb : Limit → Bool
  | .scalar _ => true
  | .gauge g0 => timesSortedB g0.events

def Gauge.wfb (g : Gauge) : Bool :=
  timesSortedB g.events && g.maxl.wfb && g.minl.wfb

/-- `set_max` without clamping: assign the new bound (linking and cache
invalidation have no pure counterpart). -/
def Gauge.set_max (g : Gauge) (l : Limit) : Gauge := { g with maxl := l }

/-- `set_min` without clamping. -/
def Gauge.set_min (g : Gauge) (l : Limit) : Gauge := { g with minl := l }

/-- `add_momentum` on a scalar-bounded gauge. -/
def Gauge0.add_momentum (g : Gauge0) (m : Momentum) : Except Err Gauge0 :=
  if validMomentum m then
    let es1 := insertEvent (m.since, 1, m) g.events
    let es2 := if m.until_ == XR.pinf then es1
               else insertEvent (m.until_, -1, m) es1
    .ok { g with momenta := insertMomentum m g.momenta, events := es2 }
  else .error .badMomentum

/-! ## Order predicates used by the invariant proofs -/

/-- `pathMono a ys`: the vertex times of `ys` are nondecreasing, starting
at or after `a`. -/
def pathMono (a : ℚ) : List (ℚ × ℚ) → Prop
  | [] => True
  | p :: rest => a ≤ p.1 ∧ pathMono p.1 rest

/-- `yieldsMono a ys b`: as `pathMono a ys`, and additionally every time,
and `a` itself, is at most `b`. -/
def yieldsMono (a : ℚ) : List (ℚ × ℚ) → ℚ → Prop
  | [], b => a ≤ b
  | p :: rest, b => a ≤ p.1 ∧ yieldsMono p.1 rest b

/-- The lines of a boundary stream have nondecreasing end times. -/
def linesUntilMono : List Line → Prop :=
  List.Chain' (fun a b => XR.leb a.untilx b.untilx = true)

/-- A well-formed boundary cursor. -/
def BWF (b : Boundary) : Prop := linesUntilMono (b.line :: b.rest)

/-- The inner-loop invariant: both cursors are well formed and, while
riding a boundary, the anchor has not passed the ridden line's end. -/
def SInv (s : DetS) : Prop :=
  BWF s.ceil ∧ BWF s.floor ∧
    (∀ w, s.bound = some w → s.overlapped = true →
      XR.leb (.fin s.since) ((s.getB w).line.untilx) = true)

/-- The event times, normalized by `max(time, t0)` as the outer loop does,
are nondecreasing and start at or after `a`. -/
def evsOK (t0 : ℚ) : ℚ → List Ev → Prop
  | _, [] => True
  | a, e :: rest =>
      XR.leb (.fin a) (XR.maxx e.1 (.fin t0)) = true ∧
      (match XR.maxx e.1 (.fin t0) with
       | .fin uq => evsOK t0 uq rest
       | _ => True)

/-! ## The crossing sequence as the specification words it (claim C9) -/

/-- Modelled from the claim's words: a consecutive vertex pair
`(t₁,v₁), (t₂,v₂)` crosses the goal iff `v₁ < goal ≤ v₂` or
`v₁ > goal ≥ v₂`, at time `t₁ + (goal − v₁)/(v₂ − v₁) · (t₂ − t₁)`. -/
def crossingOfPair (goal : ℚ) (p q : ℚ × ℚ) : Option ℚ :=
  if (p.2 < goal ∧ goal ≤ q.2) ∨ (p.2 > goal ∧ goal ≥ q.2) then
    some (p.1 + (goal - p.2) / (q.2 - p.2) * (q.1 - p.1))
  else none

/-- Modelled from the claim's words: the first vertex's time when its value
equals the goal, then the crossing time of every consecutive vertex pair
satisfying the half-open condition. -/
def wheneverSpec (d : List (ℚ × ℚ)) (goal : ℚ) : List ℚ :=
  (match d.head? with
   | some (t, v) => if v = goal then [t] else []
   | none => []) ++
    (d.zip d.tail).filterMap fun pq => crossingOfPair goal pq.1 pq.2

/-! ## Concrete scenario gauges -/

/-- Apply `add_momentum`, keeping the gauge on error (used only to build
concrete scenario gauges, whose momenta are all valid). -/
def addMomentumD (g : Gauge) (m : Momentum) : Gauge :=
  match g.add_momentum m with
  | .ok g' => g'
  | .error _ => g

/-- As `addMomentumD`, on a scalar-bounded gauge. -/
def addMomentumD0 (g : Gauge0) (m : Momentum) : Gauge0 :=
  match g.add_momentum m with
  | .ok g' => g'
  | .error _ => g

/-- `Gauge(value, max, min=0, at=t0)` with scalar bounds. -/
def mkGauge (value mx t0 : ℚ) : Gauge :=
  { base := (t0, value), momenta := [], events := [],
    maxl := .scalar mx, minl := .scalar 0 }

/-- Scenario C: `Gauge(12, 10, at=0)`, `+1` on `[0,4]`, `-2` on `[0,4]`. -/
def gaugeC : Gauge :=
  addMomentumD (addMomentumD (mkGauge 12 10 0) ⟨1, .fin 0, .fin 4⟩)
    ⟨-2, .fin 0, .fin 4⟩

/-- The max gauge of scenario E: `Gauge(15, 15, at=0)` carrying `-1` until
`5`. -/
def maxE : Gauge0 :=
  addMomentumD0
    { base := (0, 15), momenta := [], events := [], maxq := 15, minq := 0 }
    ⟨-1, .ninf, .fin 5⟩

/-- Scenario E as the source test builds it: `Gauge(12, 100, at=0)` (so
`min` defaults to `0`), `+1` on `[1,6]`, `-1` on `[3,8]`, and then `max`
replaced by `maxE`. -/
def gaugeE : Gauge :=
  (addMomentumD (addMomentumD (mkGauge 12 100 0) ⟨1, .fin 1, .fin 6⟩)
    ⟨-1, .fin 3, .fin 8⟩).set_max (.gauge maxE)

/-- The configuration exactly as claim C2 words it: as `gaugeE` but with
`min = 100`. -/
def gaugeE100 : Gauge := gaugeE.set_min (.scalar 100)

/-- Scenario D (used as a crossing witness): `Gauge(0, 10, at=0)`, `+1`
permanent, `-2` on `[3,4]`, `[5,6]` and `[7,8]`. -/
def gaugeD : Gauge :=
  addMomentumD (addMomentumD (addMomentumD (addMomentumD (mkGauge 0 10 0)
    ⟨1, .ninf, .pinf⟩) ⟨-2, .fin 3, .fin 4⟩) ⟨-2, .fin 5, .fin 6⟩)
    ⟨-2, .fin 7, .fin 8⟩

/-- The duplicated momentum of the C4 counterexample. -/
def momC4 : Momentum := ⟨1, .fin 0, .fin 5⟩

/-- The C4 counterexample gauge: `Gauge(0, 100, at=0)` already carrying
`momC4`. -/
def gaugeC4 : Gauge := addMomentumD (mkGauge 0 100 0) momC4

/-- The C5 counterexample gauge: `Gauge(0, 100, at=0)`, `+1` on `[0,2]`,
`+2` on `[2,4]` — its determination has a vertex at `t = 2` whose left and
right slopes differ. -/
def gaugeC5 : Gauge :=
  addMomentumD (addMomentumD (mkGauge 0 100 0) ⟨1, .fin 0, .fin 2⟩)
    ⟨2, .fin 2, .fin 4⟩

/-- The momentum of the C6 counterexample (`until = 0`). -/
def momC6 : Momentum := ⟨1, .fin (-1), .fin 0⟩

/-- The C6 counterexample gauge: `Gauge(12, 10, at=0)` (value above the
maximum) carrying `momC6`. -/
def gaugeC6 : Gauge := addMomentumD (mkGauge 12 10 0) momC6

/-- The C7 counterexample gauge: `Gauge(0, 5, min=100, at=0)` — the source
never validates that `min ≤ max`, so this configuration is
constructible. -/
def gaugeC7 : Gauge :=
  { base := (0, 0), momenta := [], events := [],
    maxl := .scalar 5, minl := .scalar 100 }


/-! # Theorems

Everything above is the model; everything below proves properties of it.
-/

/-! ## Order facts about extended rationals -/

namespace XR

@[simp] theorem leb_fin_fin (a b : ℚ) : leb (.fin a) (.fin b) = decide (a ≤ b) := rfl

@[simp] theorem ltb_fin_fin (a b : ℚ) : ltb (.fin a) (.fin b) = decide (a < b) := by
  simp only [ltb, leb]
  rcases lt_or_ge a b with h | h
  · simp [not_le.mpr h, h]
  · simp [h, not_lt.mpr h]

theorem leb_refl (a : XR) : leb a a = true := by
  cases a <;> simp [leb]

theorem leb_trans {a b c : XR} (h1 : leb a b = true) (h2 : leb b c = true) :
    leb a c = true := by
  cases a <;> cases b <;> cases c <;> simp_all [leb]
  exact le_trans h1 h2

theorem leb_total (a b : XR) : leb a b = true ∨ leb b a = true := by
  cases a <;> cases b <;> simp_all [leb]
  exact le_total _ _

theorem ltb_iff_not_leb (a b : XR) : ltb a b = true ↔ ¬ leb b a = true := by
  simp [ltb]

theorem leb_of_ltb {a b : XR} (h : ltb a b = true) : leb a b = true := by
  rcases leb_total a b with h' | h'
  · exact h'
  · simp [ltb, h'] at h

theorem minx_leb_left (a b : XR) : leb (minx a b) a = true := by
  by_cases h : leb a b = true
  · simp [minx, h, leb_refl]
  · rcases leb_total a b with h' | h' <;> simp_all [minx, leb_refl]

theorem minx_leb_right (a b : XR) : leb (minx a b) b = true := by
  by_cases h : leb a b = true
  · simp [minx, h]
  · rcases leb_total a b with h' | h' <;> simp_all [minx, leb_refl]

theorem leb_minx {a b c : XR} (h1 : leb a b = true) (h2 : leb a c = true) :
    leb a (minx b c) = true := by
  by_cases h : leb b c = true <;> simp [minx, h, h1, h2]

theorem maxx_leb_left (a b : XR) : leb a (maxx a b) = true := by
  by_cases h : leb b a = true
  · simp [maxx, h, leb_refl]
  · rcases leb_total a b with h' | h' <;> simp_all [maxx, leb_refl]

theorem maxx_leb_right (a b : XR) : leb b (maxx a b) = true := by
  by_cases h : leb b a = true
  · simp [maxx, h]
  · rcases leb_total a b with h' | h' <;> simp_all [maxx, leb_refl]

theorem maxx_mono_left {a a' : XR} (b : XR) (h : leb a a' = true) :
    leb (maxx a b) (maxx a' b) = true := by
  simp only [maxx]
  split_ifs with h1 h2 h2
  · exact h
  · rcases leb_total a' b with hx | hx
    · exact leb_trans h hx
    · exact absurd hx h2
  · exact h2
  · exact leb_refl b

end XR

/-! ## Facts about the explicit `qmin`/`qmax` -/

theorem qmax_le_left (a b : ℚ) : a ≤ qmax a b := by
  unfold qmax
  split_ifs with h
  · exact le_refl a
  · exact le_of_lt (lt_of_not_ge h)

theorem qmax_le_right (a b : ℚ) : b ≤ qmax a b := by
  unfold qmax
  split_ifs with h
  · exact h
  · exact le_refl b

theorem qmin_le_left (a b : ℚ) : qmin a b ≤ a := by
  unfold qmin
  split_ifs with h
  · exact le_refl a
  · exact le_of_lt (lt_of_not_ge h)

theorem qmin_le_right (a b : ℚ) : qmin a b ≤ b := by
  unfold qmin
  split_ifs with h
  · exact h
  · exact le_refl b

namespace Line

theorem intersect_bounds {l1 l2 : Line} {t v : ℚ}
    (h : intersect l1 l2 = some (t, v)) :
    l1.since ≤ t ∧ XR.leb (.fin t) l1.untilx = true ∧
      XR.leb (.fin t) l2.untilx = true := by
  unfold intersect at h
  by_cases hvd : l1.velocity - l2.velocity = 0
  · simp [hvd] at h
  · simp only [hvd, if_false] at h
    split at h
    · rename_i hcond
      rw [Bool.and_eq_true, decide_eq_true_eq] at hcond
      obtain ⟨hs, hu⟩ := hcond
      have ht : (l2.intercept - l1.intercept) / (l1.velocity - l2.velocity) = t :=
        congrArg Prod.fst (Option.some.inj h)
      rw [ht] at hs hu
      refine ⟨le_trans (qmax_le_left _ _) hs, ?_, ?_⟩
      · exact XR.leb_trans hu (XR.minx_leb_left _ _)
      · exact XR.leb_trans hu (XR.minx_leb_right _ _)
    · simp at h

end Line


/-! ## More order facts on `XR` -/

namespace XR

theorem leb_antisymm : ∀ {a b : XR}, leb a b = true → leb b a = true → a = b := by
  intro a b h1 h2
  cases a <;> cases b <;> simp_all [leb]
  exact le_antisymm h1 h2

theorem leb_fin_iff {a b : ℚ} : leb (.fin a) (.fin b) = true ↔ a ≤ b := by
  simp [leb]

theorem ltb_fin_pinf (a : ℚ) : ltb (.fin a) .pinf = true := by
  simp [ltb, leb]

theorem eq_of_not_ltb {a : ℚ} {u : XR} (hle : leb (.fin a) u = true)
    (hlt : ltb (.fin a) u = false) : u = .fin a := by
  refine leb_antisymm ?_ hle
  simpa [ltb] using hlt

theorem minx_eq_fin_left {a u : XR} {q : ℚ} (h : minx a u = .fin q) :
    leb (.fin q) a = true ∧ leb (.fin q) u = true := by
  constructor
  · exact h ▸ minx_leb_left a u
  · exact h ▸ minx_leb_right a u

end XR

/-! ## Yield-order machinery -/

theorem yieldsMono_anti {a a' : ℚ} {ys : List (ℚ × ℚ)} {b : ℚ}
    (h : a ≤ a') (hm : yieldsMono a' ys b) : yieldsMono a ys b := by
  cases ys with
  | nil => exact le_trans h hm
  | cons p rest => exact ⟨le_trans h hm.1, hm.2⟩

theorem pathMono_of_yieldsMono {a : ℚ} {ys : List (ℚ × ℚ)} {b : ℚ}
    (h : yieldsMono a ys b) : pathMono a ys := by
  induction ys generalizing a with
  | nil => trivial
  | cons p rest ih => exact ⟨h.1, ih h.2⟩

theorem pathMono_append {a b c : ℚ} {ys zs : List (ℚ × ℚ)} {v : ℚ}
    (h : yieldsMono a ys b) (hbc : b ≤ c) (hz : pathMono c zs) :
    pathMono a (ys ++ (c, v) :: zs) := by
  induction ys generalizing a with
  | nil => exact ⟨le_trans h hbc, hz⟩
  | cons p rest ih => exact ⟨h.1, ih h.2⟩

/-! ## Boundary stream facts -/

theorem BWF_walk {b : Boundary} (h : BWF b) : BWF b.walk := by
  unfold BWF linesUntilMono at *
  unfold Boundary.walk
  cases hr : b.rest with
  | nil => simpa using h
  | cons l ls =>
      rw [hr] at h
      exact h.tail

theorem walk_untilx {b : Boundary} (h : BWF b) :
    XR.leb b.line.untilx b.walk.line.untilx = true := by
  unfold BWF linesUntilMono at h
  unfold Boundary.walk
  cases hr : b.rest with
  | nil => exact XR.leb_refl _
  | cons l ls =>
      rw [hr] at h
      exact (List.chain'_cons.mp h).1

theorem BWF_skipGo (since : ℚ) (c : Bool) :
    ∀ (rest : List Line) (line : Line), linesUntilMono (line :: rest) →
      BWF (skipGo since c line rest) := by
  intro rest
  induction rest with
  | nil =>
      intro line h
      unfold skipGo BWF
      simpa using h
  | cons l ls ih =>
      intro line h
      unfold skipGo
      split_ifs with hle
      · exact ih l (List.chain'_cons.mp h).2
      · exact h

theorem BWF_mkBoundary {lines : List Line} (c : Bool)
    (h : linesUntilMono lines) : BWF (mkBoundary lines c) := by
  cases lines with
  | nil => simp [mkBoundary, BWF, linesUntilMono]
  | cons l ls => exact h

theorem BWF_skipPast {b : Boundary} (h : BWF b) (since : ℚ) :
    BWF (b.skipPast since) :=
  BWF_skipGo since b.ceil b.rest b.line h

/-! ## State accessors -/

namespace DetS

@[simp] theorem getB_true (s : DetS) : s.getB true = s.ceil := rfl

@[simp] theorem getB_false (s : DetS) : s.getB false = s.floor := rfl

@[simp] theorem setB_true (s : DetS) (b : Boundary) :
    s.setB true b = { s with ceil := b } := rfl

@[simp] theorem setB_false (s : DetS) (b : Boundary) :
    s.setB false b = { s with floor := b } := rfl

end DetS

/-! ## Search helper specifications -/

theorem findIntersect_spec {s : DetS} {line : Line} {w : Bool} {t v : ℚ} :
    ∀ {ws : List Bool}, findIntersect s line ws = some (w, t, v) →
      Line.intersect line ((s.getB w).line) = some (t, v) := by
  intro ws
  induction ws with
  | nil => intro h; simp [findIntersect] at h
  | cons w0 ws ih =>
      intro h
      unfold findIntersect at h
      split at h
      · rename_i t0 v0 hint
        split at h
        · exact ih h
        · simp only [Option.some.injEq, Prod.mk.injEq] at h
          obtain ⟨hw, ht, hv⟩ := h
          subst hw; subst ht; subst hv
          exact hint
      · exact ih h

theorem findFallback_spec {s : DetS} {line : Line} {u : XR} {w : Bool}
    {t bv : ℚ} :
    ∀ {ws : List Bool}, findFallback s line u ws = some (w, t, bv) →
      XR.minx ((s.getB w).line.untilx) u = .fin t ∧ ¬ t < s.since := by
  intro ws
  induction ws with
  | nil => intro h; simp [findFallback] at h
  | cons w0 ws ih =>
      intro h
      unfold findFallback at h
      split at h
      · exact ih h
      · exact ih h
      · rename_i buq hmin
        split_ifs at h with hlt hcmp
        · exact ih h
        · exact ih h
        · simp only [Option.some.injEq, Prod.mk.injEq] at h
          obtain ⟨hw, ht, hv⟩ := h
          subst hw; subst ht
          exact ⟨hmin, hlt⟩

/-! ## Invariant preservation through one inner-loop iteration -/

theorem XR.minx_eq_pinf {a u : XR} (h : XR.minx a u = .pinf) :
    a = .pinf ∧ u = .pinf := by
  unfold XR.minx at h
  split_ifs at h with hle
  · subst h
    cases u
    · simp [XR.leb] at hle
    · simp [XR.leb] at hle
    · exact ⟨rfl, rfl⟩
  · subst h
    cases a <;> simp [XR.leb] at hle

theorem SInv_velocity {s : DetS} (hs : SInv s) (v : ℚ) :
    SInv { s with velocity := v } := hs

theorem SInv_setB_walk {s : DetS} (hs : SInv s) (w : Bool) :
    SInv (s.setB w ((s.getB w).walk)) := by
  obtain ⟨hc, hf, hb⟩ := hs
  cases w
  · refine ⟨hc, BWF_walk hf, ?_⟩
    intro w' hbw' hov
    cases w'
    · exact XR.leb_trans (hb false hbw' hov) (walk_untilx hf)
    · exact hb true hbw' hov
  · refine ⟨BWF_walk hc, hf, ?_⟩
    intro w' hbw' hov
    cases w'
    · exact hb false hbw' hov
    · exact XR.leb_trans (hb true hbw' hov) (walk_untilx hc)

/-- The riding sub-step: a stop keeps the state, with the ridden line
reaching past `until`; a cont moves the anchor forward to the emitted
boundary point, which stays within `until` and the ridden line. -/
theorem rideStep_spec {u : XR} {w : Bool} {s2 : DetS} (hs : SInv s2)
    (hcond : XR.ltb (.fin s2.since) u = true) (hb : s2.bound = some w)
    (hov : s2.overlapped = true) :
    (∀ s', rideStep u w s2 = .stop s' →
      s' = s2 ∧ XR.leb u ((s2.getB w).line.untilx) = true) ∧
    (∀ y s' again', rideStep u w s2 = .cont y s' again' →
      SInv s' ∧ s2.since ≤ s'.since ∧ XR.leb (.fin s'.since) u = true ∧
      (∀ p, y = some p → p.1 = s'.since)) := by
  have hinv := hs.2.2 w hb hov
  have hle : XR.leb (.fin s2.since) u = true := XR.leb_of_ltb hcond
  constructor
  · intro s' h
    unfold rideStep at h
    split at h
    · rename_i hmin
      cases h
      refine ⟨rfl, ?_⟩
      rw [(XR.minx_eq_pinf hmin).1]
      cases u <;> simp [XR.leb]
    · -- minx = ninf: impossible under the invariant
      rename_i hmin
      exfalso
      unfold XR.minx at hmin
      split_ifs at hmin with hlem
      · rw [hmin] at hinv
        simp [XR.leb] at hinv
      · subst hmin
        simp [XR.ltb, XR.leb] at hcond
    · exact absurd h (by simp)
  · intro y s' again' h
    unfold rideStep at h
    split at h
    · exact absurd h (by simp)
    · exact absurd h (by simp)
    · rename_i buq hmin
      cases h
      have hfin := XR.minx_eq_fin_left hmin
      have hbuq : XR.leb (.fin s2.since) (.fin buq) = true := by
        rw [← hmin]
        exact XR.leb_minx hinv hle
      refine ⟨⟨hs.1, hs.2.1, ?_⟩, XR.leb_fin_iff.mp hbuq, hfin.2, ?_⟩
      · intro w' hbw' hov'
        have hw : w' = w := by
          rw [hb] at hbw'
          exact (Option.some.inj hbw').symm
        subst hw
        exact hfin.1
      · intro p hp
        cases hp
        rfl

/-- The free sub-steps never stop, preserve the invariant, move the anchor
forward within `until`, and yield (if anything) the new anchor. -/
theorem freeStep_spec {u : XR} {walked : List Bool} {s2 : DetS}
    (hs : SInv s2) (hcond : XR.ltb (.fin s2.since) u = true) :
    (∀ s', freeStep u walked s2 ≠ .stop s') ∧
    (∀ y s' again', freeStep u walked s2 = .cont y s' again' →
      SInv s' ∧ s2.since ≤ s'.since ∧ XR.leb (.fin s'.since) u = true ∧
      (∀ p, y = some p → p.1 = s'.since)) := by
  have hle : XR.leb (.fin s2.since) u = true := XR.leb_of_ltb hcond
  constructor
  · intro s' h
    simp only [freeStep] at h
    split at h
    all_goals try split_ifs at h
    all_goals try split at h
    all_goals simp at h
  · intro y s' again' h
    simp only [freeStep] at h
    split at h
    · rename_i w0 t v hfi
      cases h
      have hint := findIntersect_spec hfi
      have hbounds := Line.intersect_bounds hint
      refine ⟨⟨hs.1, hs.2.1, ?_⟩, hbounds.1, hbounds.2.1, ?_⟩
      · intro w hbw hov'
        have hw : w = w0 := Option.some.inj hbw.symm
        subst hw
        exact hbounds.2.2
      · intro p hp
        cases hp
        rfl
    · split_ifs at h with hbs
      · cases h
        exact ⟨hs, le_refl _, hle, by intro p hp; simp at hp⟩
      · split at h
        · rename_i w0 buq bv hff
          cases h
          have hspec := findFallback_spec hff
          have hfin := XR.minx_eq_fin_left hspec.1
          refine ⟨⟨hs.1, hs.2.1, ?_⟩, not_lt.mp hspec.2, hfin.2, ?_⟩
          · intro w hbw hov'
            have hw : w = w0 := Option.some.inj hbw.symm
            subst hw
            exact hfin.1
          · intro p hp
            cases hp
            rfl
        · cases h
          exact ⟨hs, le_refl _, hle, by intro p hp; simp at hp⟩

/-- Everything steps 3-7 guarantee: a `stop` leaves the anchor in place
with any still-ridden boundary reaching `until`; a `cont` preserves the
invariant, moves the anchor forward but not beyond `until`, and yields
(if anything) exactly the new anchor. -/
theorem stepRest_spec {u : XR} {walked : List Bool} {s2 : DetS}
    (hs : SInv s2) (hcond : XR.ltb (.fin s2.since) u = true) :
    (∀ s', stepRest u walked s2 = .stop s' →
      SInv s' ∧ s'.since = s2.since ∧
      (∀ w, s'.bound = some w → s'.overlapped = true →
        XR.leb u ((s'.getB w).line.untilx) = true)) ∧
    (∀ y s' again', stepRest u walked s2 = .cont y s' again' →
      SInv s' ∧ s2.since ≤ s'.since ∧ XR.leb (.fin s'.since) u = true ∧
      (∀ p, y = some p → p.1 = s'.since)) := by
  have hle : XR.leb (.fin s2.since) u = true := XR.leb_of_ltb hcond
  constructor
  · intro s' h
    unfold stepRest at h
    by_cases hrel : releaseCheck s2 s2.velocity = true
    · rw [if_pos hrel] at h
      simp at h
    · rw [if_neg hrel] at h
      by_cases hov : s2.overlapped = true
      · rw [if_pos hov] at h
        split at h
        · rename_i hbnone
          cases h
          refine ⟨hs, rfl, ?_⟩
          intro w hbw
          rw [hbw] at hbnone
          simp at hbnone
        · rename_i w0 hbsome
          have hspec := (rideStep_spec hs hcond hbsome hov).1 s' h
          rw [hspec.1]
          refine ⟨hs, rfl, ?_⟩
          intro w hbw hov'
          have hw : w = w0 := by
            rw [hbw] at hbsome
            exact Option.some.inj hbsome
          subst hw
          exact hspec.2
      · rw [if_neg hov] at h
        exact absurd h ((freeStep_spec hs hcond).1 s')
  · intro y s' again' h
    unfold stepRest at h
    by_cases hrel : releaseCheck s2 s2.velocity = true
    · rw [if_pos hrel] at h
      cases h
      exact ⟨⟨hs.1, hs.2.1, by intro w hbw hov'; simp at hbw⟩, le_refl _, hle,
        by intro p hp; simp at hp⟩
    · rw [if_neg hrel] at h
      by_cases hov : s2.overlapped = true
      · rw [if_pos hov] at h
        split at h
        · simp at h
        · rename_i w0 hbsome
          exact (rideStep_spec hs hcond hbsome hov).2 y s' again' h
      · rw [if_neg hov] at h
        exact (freeStep_spec hs hcond).2 y s' again' h

/-- `stepRest_spec`, lifted over the velocity-recording step 2. -/
theorem stepCore_spec {u : XR} {walked : List Bool} {s1 : DetS}
    (hs : SInv s1) (hcond : XR.ltb (.fin s1.since) u = true) :
    (∀ s', stepCore u walked s1 = .stop s' →
      SInv s' ∧ s'.since = s1.since ∧
      (∀ w, s'.bound = some w → s'.overlapped = true →
        XR.leb u ((s'.getB w).line.untilx) = true)) ∧
    (∀ y s' again', stepCore u walked s1 = .cont y s' again' →
      SInv s' ∧ s1.since ≤ s'.since ∧ XR.leb (.fin s'.since) u = true ∧
      (∀ p, y = some p → p.1 = s'.since)) := by
  have hs2 : SInv ({ s1 with velocity := calcVelocity s1 } : DetS) := hs
  exact stepRest_spec hs2 hcond

/-- `stepCore_spec`, lifted over the boundary choice (step 1): an all-lines
break stop keeps the state with every line reaching `until`; walking the
shortest boundary preserves the invariant. -/
theorem innerStep_spec {s : DetS} {u : XR} {again : Bool}
    (hs : SInv s) (hcond : XR.ltb (.fin s.since) u = true) :
    (∀ s', innerStep s u again = .stop s' →
      SInv s' ∧ s'.since = s.since ∧
      (∀ w, s'.bound = some w → s'.overlapped = true →
        XR.leb u ((s'.getB w).line.untilx) = true)) ∧
    (∀ y s' again', innerStep s u again = .cont y s' again' →
      SInv s' ∧ s.since ≤ s'.since ∧ XR.leb (.fin s'.since) u = true ∧
      (∀ p, y = some p → p.1 = s'.since)) := by
  unfold innerStep
  by_cases hag : again = true
  · rw [if_pos hag]
    exact stepCore_spec hs hcond
  · rw [if_neg hag]
    by_cases hall :
        (XR.leb u s.ceil.line.untilx && XR.leb u s.floor.line.untilx) = true
    · rw [if_pos hall]
      rw [Bool.and_eq_true] at hall
      constructor
      · intro s' h
        cases h
        refine ⟨hs, rfl, ?_⟩
        intro w _ _
        cases w
        · exact hall.2
        · exact hall.1
      · intro y s' again' h
        simp at h
    · rw [if_neg hall]
      have hsince :
          (s.setB (XR.leb s.ceil.line.untilx s.floor.line.untilx)
            ((s.getB (XR.leb s.ceil.line.untilx s.floor.line.untilx)).walk)).since
            = s.since := by
        cases hw : XR.leb s.ceil.line.untilx s.floor.line.untilx <;> rfl
      have hkey := @stepCore_spec u
        [XR.leb s.ceil.line.untilx s.floor.line.untilx]
        (s.setB (XR.leb s.ceil.line.untilx s.floor.line.untilx)
          ((s.getB (XR.leb s.ceil.line.untilx s.floor.line.untilx)).walk))
        (SInv_setB_walk hs (XR.leb s.ceil.line.untilx s.floor.line.untilx))
        (by rw [hsince]; exact hcond)
      constructor
      · intro s' h
        have hsp := hkey.1 s' h
        exact ⟨hsp.1, by rw [hsp.2.1, hsince], hsp.2.2⟩
      · intro y s' again' h
        have hsp := hkey.2 y s' again' h
        exact ⟨hsp.1, by rw [← hsince]; exact hsp.2.1, hsp.2.2⟩

/-- The inner loop, for every fuel: the invariant is preserved, the final
anchor stays within `until`, the yields are a nondecreasing chain from the
initial anchor to the final one, and a still-ridden boundary either
reaches `until` or the loop stopped exactly at `until`. -/
theorem innerLoop_spec :
    ∀ (fuel : ℕ) (s : DetS) (u : XR) (again : Bool),
      SInv s → XR.leb (.fin s.since) u = true →
      SInv (innerLoop fuel s u again).2 ∧
      XR.leb (.fin (innerLoop fuel s u again).2.since) u = true ∧
      yieldsMono s.since (innerLoop fuel s u again).1
        (innerLoop fuel s u again).2.since ∧
      (∀ w, (innerLoop fuel s u again).2.bound = some w →
        (innerLoop fuel s u again).2.overlapped = true →
        XR.leb u (((innerLoop fuel s u again).2.getB w).line.untilx) = true ∨
          u = .fin (innerLoop fuel s u again).2.since) := by
  intro fuel
  induction fuel with
  | zero =>
      intro s u again hs hin
      refine ⟨⟨hs.1, hs.2.1, ?_⟩, hin, le_refl _, ?_⟩
      · intro w hbw
        simp [innerLoop] at hbw
      · intro w hbw
        simp [innerLoop] at hbw
  | succ fuel ih =>
      intro s u again hs hin
      by_cases hcond : XR.ltb (.fin s.since) u = true
      · have hstep := @innerStep_spec s u again hs hcond
        rcases hres : innerStep s u again with ⟨s'⟩ | ⟨y, s', again'⟩
        · have hsp := hstep.1 s' hres
          have heq : innerLoop (fuel + 1) s u again = ([], s') := by
            simp [innerLoop, hcond, hres]
          rw [heq]
          refine ⟨hsp.1, ?_, ?_, ?_⟩
          · rw [hsp.2.1]
            exact hin
          · exact le_of_eq hsp.2.1.symm
          · intro w hbw hov
            exact Or.inl (hsp.2.2 w hbw hov)
        · have hsp := hstep.2 y s' again' hres
          have heq : innerLoop (fuel + 1) s u again =
              (y.toList ++ (innerLoop fuel s' u again').1,
                (innerLoop fuel s' u again').2) := by
            simp [innerLoop, hcond, hres]
          rw [heq]
          have hih := ih s' u again' hsp.1 hsp.2.2.1
          refine ⟨hih.1, hih.2.1, ?_, hih.2.2.2⟩
          cases y with
          | none => exact yieldsMono_anti hsp.2.1 hih.2.2.1
          | some p =>
              have hp : p.1 = s'.since := hsp.2.2.2 p rfl
              refine ⟨?_, ?_⟩
              · rw [hp]
                exact hsp.2.1
              · rw [hp]
                exact hih.2.2.1
      · have heq : innerLoop (fuel + 1) s u again = ([], s) := by
          simp [innerLoop, hcond]
        rw [heq]
        have hflat : XR.ltb (.fin s.since) u = false := by
          revert hcond
          cases XR.ltb (.fin s.since) u <;> simp
        refine ⟨hs, hin, le_refl _, ?_⟩
        intro w hbw hov
        exact Or.inr (XR.eq_of_not_ltb hin hflat)

/-- The outer loop emits a nondecreasing chain of vertex times starting at
the anchor, provided the normalized event times are nondecreasing. -/
theorem outerLoop_spec (t0 : ℚ) (fuel : ℕ) :
    ∀ (evs : List Ev) (s : DetS), SInv s → evsOK t0 s.since evs →
      pathMono s.since (outerLoop t0 fuel evs s) := by
  intro evs
  induction evs with
  | nil =>
      intro s _ _
      trivial
  | cons e rest ihrest =>
      intro s hs hok
      obtain ⟨time, method, m⟩ := e
      obtain ⟨hhead, htail⟩ := hok
      have hil := innerLoop_spec fuel s (XR.maxx time (.fin t0)) true hs hhead
      rcases hu : XR.maxx time (.fin t0) with _ | uq | _
      · rw [hu] at hil
        have heq : outerLoop t0 fuel ((time, method, m) :: rest) s =
            (innerLoop fuel s XR.ninf true).1 := by
          simp [outerLoop, hu]
        rw [heq]
        exact pathMono_of_yieldsMono hil.2.2.1
      · rw [hu] at hil
        rw [hu] at htail
        rcases hres : innerLoop fuel s (XR.fin uq) true with ⟨ys, s1⟩
        rw [hres] at hil
        have heq : outerLoop t0 fuel ((time, method, m) :: rest) s =
            ys ++ (uq, s1.value + s1.velocity * (uq - s1.since)) ::
              outerLoop t0 fuel rest
                { s1 with since := uq,
                          value := s1.value + s1.velocity * (uq - s1.since),
                          velocities :=
                            if method = 1 then s1.velocities ++ [m.velocity]
                            else if method = -1 then
                              s1.velocities.erase m.velocity
                            else s1.velocities } := by
          simp [outerLoop, hu, hres]
        rw [heq]
        have hinv3 : ∀ w, s1.bound = some w → s1.overlapped = true →
            XR.leb (.fin uq) ((s1.getB w).line.untilx) = true := by
          intro w hbw hov
          rcases hil.2.2.2 w hbw hov with hcase | hcase
          · exact hcase
          · have huq : uq = s1.since := XR.fin.inj hcase.symm.symm
            rw [huq]
            exact hil.1.2.2 w hbw hov
        have hs'' : SInv
            ({ s1 with since := uq,
                       value := s1.value + s1.velocity * (uq - s1.since),
                       velocities :=
                         if method = 1 then s1.velocities ++ [m.velocity]
                         else if method = -1 then
                           s1.velocities.erase m.velocity
                         else s1.velocities } : DetS) :=
          ⟨hil.1.1, hil.1.2.1, hinv3⟩
        refine pathMono_append hil.2.2.1 (XR.leb_fin_iff.mp hil.2.1) ?_
        exact ihrest _ hs'' htail
      · rw [hu] at hil
        have heq : outerLoop t0 fuel ((time, method, m) :: rest) s =
            (innerLoop fuel s XR.pinf true).1 := by
          simp [outerLoop, hu]
        rw [heq]
        exact pathMono_of_yieldsMono hil.2.2.1

/-! ## Sorted event streams -/

theorem timesSortedB_chain : ∀ {evs : List Ev}, timesSortedB evs = true ↔
    List.Chain' (fun a b : Ev => XR.leb a.1 b.1 = true) evs := by
  intro evs
  induction evs with
  | nil => simp [timesSortedB]
  | cons a rest ih =>
      cases rest with
      | nil => simp [timesSortedB]
      | cons b r =>
          rw [timesSortedB, Bool.and_eq_true, List.chain'_cons, ih]

theorem timesSortedB_filter {p : Ev → Bool} {evs : List Ev}
    (h : timesSortedB evs = true) : timesSortedB (evs.filter p) = true := by
  rw [timesSortedB_chain] at h ⊢
  haveI : IsTrans Ev (fun a b : Ev => XR.leb a.1 b.1 = true) :=
    ⟨fun _ _ _ hxy hyz => XR.leb_trans hxy hyz⟩
  rw [List.chain'_iff_pairwise] at h ⊢
  exact h.filter p

theorem evsOK_build (t0 : ℚ) :
    ∀ (evs : List Ev) (a : ℚ), timesSortedB evs = true →
      (∀ e, evs.head? = some e →
        XR.leb (.fin a) (XR.maxx e.1 (.fin t0)) = true) →
      evsOK t0 a (evs ++ [(.pinf, 0, dummyM)]) := by
  intro evs
  induction evs with
  | nil =>
      intro a _ _
      refine ⟨?_, ?_⟩
      · simp [XR.maxx, XR.leb]
      · simp [XR.maxx, XR.leb]
  | cons e rest ih =>
      intro a hs hhead
      refine ⟨hhead e rfl, ?_⟩
      rcases hu : XR.maxx e.1 (.fin t0) with _ | uq | _
      · trivial
      · show evsOK t0 uq (rest ++ [(.pinf, 0, dummyM)])
        apply ih uq
        · exact timesSortedB_chain.mpr (timesSortedB_chain.mp hs).tail
        · intro e' he'
          cases rest with
          | nil => simp at he'
          | cons b r =>
              have hb : b = e' := by simpa using he'
              subst hb
              have hle : XR.leb e.1 b.1 = true := by
                rw [timesSortedB, Bool.and_eq_true] at hs
                exact hs.1
              rw [← hu]
              exact XR.maxx_mono_left (.fin t0) hle
      · trivial

theorem evsOK_walkEvents (t0 : ℚ) (events : List Ev)
    (momenta : List Momentum) (h : timesSortedB events = true) :
    evsOK t0 t0 (walkEventsL t0 events momenta) := by
  unfold walkEventsL
  have hmx : XR.maxx (.fin t0) (.fin t0) = .fin t0 := by
    simp [XR.maxx, XR.leb_refl]
  refine ⟨?_, ?_⟩
  · exact XR.maxx_leb_left _ _
  · rw [hmx]
    exact evsOK_build t0 _ t0 (timesSortedB_filter h)
      (fun e _ => XR.maxx_leb_right _ _)

/-! ## Deduplication of equal adjacent times -/

theorem dedup_head (p : ℚ × ℚ) (rest : List (ℚ × ℚ)) :
    dedupFrom none (p :: rest) = p :: dedupFrom (some p.1) rest := by
  simp [dedupFrom]

theorem dedup_chain : ∀ (ys : List (ℚ × ℚ)) (a : ℚ), pathMono a ys →
    List.Chain' (fun p q : ℚ × ℚ => p.1 < q.1) (dedupFrom (some a) ys) ∧
    (∀ q, (dedupFrom (some a) ys).head? = some q → a < q.1) := by
  intro ys
  induction ys with
  | nil =>
      intro a _
      refine ⟨List.chain'_nil, ?_⟩
      intro q hq
      simp [dedupFrom] at hq
  | cons p rest ih =>
      intro a hpm
      obtain ⟨hap, hrest⟩ := hpm
      by_cases heq : a = p.1
      · have hskip : dedupFrom (some a) (p :: rest) = dedupFrom (some a) rest := by
          simp [dedupFrom, heq]
        rw [hskip]
        have : pathMono a rest := by rw [heq]; exact hrest
        have hih := ih a this
        rw [heq] at hih ⊢
        exact hih
      · have hkeep : dedupFrom (some a) (p :: rest) =
            p :: dedupFrom (some p.1) rest := by
          simp [dedupFrom, heq]
        rw [hkeep]
        have hih := ih p.1 hrest
        constructor
        · rw [List.chain'_cons']
          exact ⟨fun q hq => hih.2 q hq, hih.1⟩
        · intro q hq
          have : p = q := by simpa using hq
          subst this
          exact lt_of_le_of_ne hap heq

theorem dedup_chain_none (ys : List (ℚ × ℚ)) (a : ℚ) (h : pathMono a ys) :
    List.Chain' (fun p q : ℚ × ℚ => p.1 < q.1) (dedupFrom none ys) := by
  cases ys with
  | nil => exact List.chain'_nil
  | cons p rest =>
      rw [dedup_head]
      have hih := dedup_chain rest p.1 h.2
      rw [List.chain'_cons']
      exact ⟨fun q hq => hih.2 q hq, hih.1⟩

/-! ## Monotone boundary line streams from `walk_lines` -/

theorem XR.leb_pinf (a : XR) : XR.leb a .pinf = true := by
  cases a <;> simp [XR.leb]

theorem linesUntilMono_append_pinf (ls : List Line) (x : ℚ) (v : ℚ)
    (h : linesUntilMono ls) :
    linesUntilMono (ls ++ [Line.Horizon x .pinf v]) := by
  rw [linesUntilMono, List.chain'_append]
  refine ⟨h, List.chain'_singleton _, ?_⟩
  intro a _ b hb
  have hbeq : Line.Horizon x .pinf v = b := by simpa using hb
  subst hbeq
  exact XR.leb_pinf _

theorem segs_mono : ∀ (det : List (ℚ × ℚ)),
    List.Chain' (fun p q : ℚ × ℚ => p.1 ≤ q.1) det →
    linesUntilMono ((det.zip det.tail).map fun pq =>
      Line.Segment pq.1.1 pq.2.1 pq.1.2 pq.2.2) := by
  intro det
  induction det with
  | nil => intro _; simp [linesUntilMono]
  | cons d0 rest ih =>
      intro h
      cases rest with
      | nil => simp [linesUntilMono]
      | cons d1 r =>
          have htail := ih (List.chain'_cons.mp h).2
          simp only [List.tail_cons, List.zip_cons_cons, List.map_cons]
          rw [linesUntilMono, List.chain'_cons']
          refine ⟨?_, htail⟩
          intro b hb
          cases r with
          | nil => simp at hb
          | cons d2 r' =>
              have hbeq : Line.Segment d1.1 d2.1 d1.2 d2.2 = b := by
                simpa using hb
              subst hbeq
              have hd12 : d1.1 ≤ d2.1 :=
                (List.chain'_cons.mp (List.chain'_cons.mp h).2).1
              simpa [Line.untilx] using hd12

theorem linesFromDet_cons (t0 : ℚ) (first : ℚ × ℚ) (dtail : List (ℚ × ℚ)) :
    linesFromDet t0 (first :: dtail) =
      (if t0 < first.1 then [Line.Horizon t0 (.fin first.1) first.2] else []) ++
        (((first :: dtail).zip (first :: dtail).tail).map fun pq =>
          Line.Segment pq.1.1 pq.2.1 pq.1.2 pq.2.2) ++
        [Line.Horizon ((first :: dtail).getLastD first).1 .pinf
          ((first :: dtail).getLastD first).2] := rfl

theorem linesFromDet_mono (t0 : ℚ) (det : List (ℚ × ℚ))
    (h : List.Chain' (fun p q : ℚ × ℚ => p.1 ≤ q.1) det) :
    linesUntilMono (linesFromDet t0 det) := by
  cases det with
  | nil => simp [linesFromDet, linesUntilMono]
  | cons first dtail =>
      rw [linesFromDet_cons]
      have hsegs := segs_mono (first :: dtail) h
      have hmid : linesUntilMono
          ((((first :: dtail).zip (first :: dtail).tail).map fun pq =>
            Line.Segment pq.1.1 pq.2.1 pq.1.2 pq.2.2) ++
            [Line.Horizon ((first :: dtail).getLastD first).1 .pinf
              ((first :: dtail).getLastD first).2]) :=
        linesUntilMono_append_pinf _ _ _ hsegs
      rw [List.append_assoc]
      by_cases hlead : t0 < first.1
      · rw [if_pos hlead]
        rw [List.singleton_append]
        rw [linesUntilMono, List.chain'_cons']
        refine ⟨?_, hmid⟩
        intro b hb
        cases dtail with
        | nil =>
            simp only [List.tail_cons, List.zip_nil_right, List.map_nil,
              List.nil_append] at hb
            have hbeq : Line.Horizon first.1 .pinf first.2 = b := by
              simpa using hb
            subst hbeq
            exact XR.leb_pinf _
        | cons d1 r =>
            simp only [List.tail_cons, List.zip_cons_cons, List.map_cons,
              List.cons_append] at hb
            have hbeq : Line.Segment first.1 d1.1 first.2 d1.2 = b := by
              simpa using hb
            subst hbeq
            have hfd : first.1 ≤ d1.1 := (List.chain'_cons.mp h).1
            simpa [Line.untilx] using hfd
      · rw [if_neg hlead]
        simpa using hmid

/-! ## The determination: first vertex and sortedness -/

theorem innerLoop_noop {fuel : ℕ} {s : DetS} {u : XR} {again : Bool}
    (h : XR.ltb (.fin s.since) u = false) (hf : fuel ≠ 0) :
    innerLoop fuel s u again = ([], s) := by
  cases fuel with
  | zero => exact absurd rfl hf
  | succ n => simp [innerLoop, h]

/-- The very first walked event is the base-time sentinel: the loop body is
skipped and the base point itself is emitted. -/
theorem outer_first (t0 : ℚ) (fuel : ℕ) (hf : fuel ≠ 0) (rest : List Ev)
    (s : DetS) (hsince : s.since = t0) :
    outerLoop t0 fuel ((.fin t0, 0, dummyM) :: rest) s =
      (t0, s.value + s.velocity * (t0 - s.since)) ::
        outerLoop t0 fuel rest
          { s with since := t0,
                   value := s.value + s.velocity * (t0 - s.since) } := by
  have hmx : XR.maxx (.fin t0) (.fin t0) = .fin t0 := by
    simp [XR.maxx, XR.leb_refl]
  have hnl : XR.ltb (.fin s.since) (.fin t0) = false := by
    rw [hsince]
    simp [XR.ltb, XR.leb_refl]
  simp [outerLoop, hmx, innerLoop_noop hnl hf]

theorem determineL_fuel_ne (cl fl : List Line) :
    8 * (cl.length + fl.length + 4) ≠ 0 := by omega

/-- For any inputs, the determiner's raw output starts with the base
point. -/
theorem determineL_head (base : ℚ × ℚ) (events : List Ev)
    (momenta : List Momentum) (cl fl : List Line) :
    ∃ tail, determineL base (walkEventsL base.1 events momenta) cl fl =
      (base.1, base.2) :: tail := by
  simp only [determineL, walkEventsL]
  rw [List.cons_append]
  rw [outer_first base.1 (8 * (cl.length + fl.length + 4))
    (determineL_fuel_ne cl fl)
    (List.filter (fun e => momenta.contains e.2.2) events ++
      [(XR.pinf, 0, dummyM)])
    (initDetS base cl fl) rfl]
  have hval : (initDetS base cl fl).value +
      (initDetS base cl fl).velocity * (base.1 - (initDetS base cl fl).since) =
      base.2 := by
    show base.2 + 0 * (base.1 - base.1) = base.2
    ring
  rw [hval]
  exact ⟨_, rfl⟩

/-- The generic sortedness result: with monotone boundary streams and a
sorted event log, the cached (deduplicated) determination starts at the
base point and is strictly increasing in time. -/
theorem detL_sorted (base : ℚ × ℚ) (events : List Ev)
    (momenta : List Momentum) (cl fl : List Line)
    (hcl : linesUntilMono cl) (hfl : linesUntilMono fl)
    (hevs : timesSortedB events = true) :
    List.Chain' (fun p q : ℚ × ℚ => p.1 < q.1)
      (dedupFrom none
        (determineL base (walkEventsL base.1 events momenta) cl fl)) := by
  have hSI : SInv (initDetS base cl fl) := by
    refine ⟨BWF_skipPast (BWF_mkBoundary true hcl) base.1,
      BWF_skipPast (BWF_mkBoundary false hfl) base.1, ?_⟩
    intro w hbw hov
    simp [initDetS] at hov
  have hok : evsOK base.1 (initDetS base cl fl).since
      (walkEventsL base.1 events momenta) :=
    evsOK_walkEvents base.1 events momenta hevs
  have hpath := outerLoop_spec base.1 (8 * (cl.length + fl.length + 4))
    (walkEventsL base.1 events momenta) (initDetS base cl fl) hSI hok
  exact dedup_chain_none _ base.1 hpath

/-- Sortedness of a scalar-bounded gauge's cached determination. -/
theorem detL_sorted_gauge0 (g : Gauge0) (h : timesSortedB g.events = true) :
    List.Chain' (fun p q : ℚ × ℚ => p.1 < q.1) g.determination := by
  unfold Gauge0.determination
  refine detL_sorted g.base g.events g.momenta _ _ ?_ ?_ h
  · simp [linesUntilMono]
  · simp [linesUntilMono]

/-- A well-formed bound produces a monotone line stream. -/
theorem walk_lines_mono (t0 : ℚ) (l : Limit) (h : l.wfb = true) :
    linesUntilMono (l.walk_lines t0) := by
  cases l with
  | scalar q => simp [Limit.walk_lines, linesUntilMono]
  | gauge g0 =>
      have hd := detL_sorted_gauge0 g0 h
      exact linesFromDet_mono t0 _ (hd.imp fun a b hab => le_of_lt hab)

/-- Shared: the first cached vertex is exactly the base point, out of
bounds or not. -/
theorem determination_head (g : Gauge) :
    g.determination.head? = some g.base := by
  unfold Gauge.determination
  obtain ⟨tail, htail⟩ := determineL_head g.base g.events g.momenta
    (g.maxl.walk_lines g.base.1) (g.minl.walk_lines g.base.1)
  rw [htail, dedup_head]
  rfl

/-- Shared: the cached determination of a well-formed gauge is strictly
increasing in time. -/
theorem determination_sorted (g : Gauge) (h : g.wfb = true) :
    List.Chain' (fun p q : ℚ × ℚ => p.1 < q.1) g.determination := by
  unfold Gauge.wfb at h
  simp only [Bool.and_eq_true] at h
  exact detL_sorted g.base g.events g.momenta _ _
    (walk_lines_mono g.base.1 g.maxl h.1.2)
    (walk_lines_mono g.base.1 g.minl h.2) h.1.1

/-! ## Claim C1: scenario C -/

set_option maxRecDepth 100000 in
unseal Rat.mul Rat.add Rat.inv Rat.sub in
/-- C1: for the gauge with value 12, max 10, min 0 at time 0, carrying
momenta `+1` on `[0,4]` and `-2` on `[0,4]`, the determination is exactly
`[(0,12), (1,10), (4,7)]`: the trajectory starts at the out-of-bounds
base, descends with the feasible-side velocity `-2` only, lands on the
ceiling at `(1,10)`, and proceeds with the net velocity `-1`. -/
theorem C1_scenario_c :
    gaugeC.determination = [(0, 12), (1, 10), (4, 7)] := by decide

/-! ## Claim C2: scenario E (hyper-gauge)

The claim describes scenario E with `min = 100`.  The source test builds it
as `Gauge(12, 100, at=0)` — whose `min` defaults to `0` — and then replaces
`max`; with `min = 100` the determiner snaps to the floor `100` at the
event time `8` and the determination ends in `(8, 100)`, not `(8, 8)`. -/

set_option maxRecDepth 100000 in
unseal Rat.mul Rat.add Rat.inv Rat.sub in
/-- C2 counterexample: with `min = 100`, as the claim words the scenario,
the determination is `…, (8, 100)` and differs from the claimed value. -/
theorem C2_counterexample :
    gaugeE100.determination =
        [(0, 12), (1, 12), (2, 13), (3, 12), (5, 10), (6, 10), (8, 100)] ∧
      gaugeE100.determination ≠
        [(0, 12), (1, 12), (2, 13), (3, 12), (5, 10), (6, 10), (8, 8)] := by
  constructor
  · decide
  · decide

set_option maxRecDepth 100000 in
unseal Rat.mul Rat.add Rat.inv Rat.sub in
/-- C2 amended: for the hyper-gauge of scenario E as the source builds it —
value 12 at time 0, max the gauge `Gauge(15, 15, at=0)` carrying `-1`
until 5, `min = 0`, momenta `+1` on `[1,6]` and `-1` on `[3,8]` — the
determination is exactly
`[(0,12), (1,12), (2,13), (3,12), (5,10), (6,10), (8,8)]`; the ceiling
lines are derived from the max gauge's own determination `[(0,15), (5,10)]`
as one `Segment` per vertex pair plus a trailing `Horizon`. -/
theorem C2_hyper_determination :
    gaugeE.determination =
        [(0, 12), (1, 12), (2, 13), (3, 12), (5, 10), (6, 10), (8, 8)] ∧
      maxE.determination = [(0, 15), (5, 10)] ∧
      Limit.walk_lines gaugeE.base.1 gaugeE.maxl =
        [Line.Segment 0 5 15 10, Line.Horizon 5 .pinf 10] := by
  refine ⟨by decide, by decide, by decide⟩

/-! ## Claim C3: the cached determination's shape -/

/-- C3: for every well-formed gauge (sorted event log, also in any gauge
used as a bound) with scalar or gauge bounds, the cached determination has
strictly increasing times (equal adjacent times having been deduplicated
while caching), and its first vertex is exactly the base point — time
`t₀` and value `v₀`, even when `v₀` lies outside the bounds. -/
theorem C3_cached_determination (g : Gauge) (h : g.wfb = true) :
    g.determination.head? = some g.base ∧
      List.Chain' (fun p q : ℚ × ℚ => p.1 < q.1) g.determination :=
  ⟨determination_head g, determination_sorted g h⟩

/-- C3 witness: scenario C's gauge (whose base value 12 is above its
maximum 10) is well formed; its cached determination starts at the base
point and is strictly increasing in time. -/
theorem C3_witness :
    gaugeC.wfb = true ∧
      (gaugeC.determination.head? = some gaugeC.base ∧
        List.Chain' (fun p q : ℚ × ℚ => p.1 < q.1) gaugeC.determination) :=
  ⟨by decide, C3_cached_determination gaugeC (by decide)⟩

/-! ## Claim C4: `add_momentum` then `remove_momentum` -/

theorem mem_insertMomentum (m : Momentum) :
    ∀ (l : List Momentum), m ∈ insertMomentum m l := by
  intro l
  induction l with
  | nil => simp [insertMomentum]
  | cons x xs ih =>
      unfold insertMomentum
      split_ifs with hlt
      · simp
      · simp only [List.mem_cons]
        exact Or.inr ih

theorem erase_insertMomentum (m : Momentum) :
    ∀ (l : List Momentum), m ∉ l → (insertMomentum m l).erase m = l := by
  intro l
  induction l with
  | nil =>
      intro _
      simp [insertMomentum]
  | cons x xs ih =>
      intro hm
      unfold insertMomentum
      split_ifs with hlt
      · rw [List.erase_cons_head]
      · have hxm : ¬ x = m := fun h => hm (h ▸ List.mem_cons_self x xs)
        rw [List.erase_cons]
        simp only [beq_iff_eq, hxm, if_false]
        rw [ih fun h => hm (List.mem_cons_of_mem x h)]

theorem filter_insertEvent (p : Ev → Bool) (e : Ev) (hpe : p e = false) :
    ∀ (l : List Ev), (insertEvent e l).filter p = l.filter p := by
  intro l
  induction l with
  | nil => simp [insertEvent, hpe]
  | cons x xs ih =>
      unfold insertEvent
      split_ifs with hlt
      · rw [List.filter_cons, hpe]
        simp
      · rw [List.filter_cons, List.filter_cons, ih]

set_option maxRecDepth 100000 in
unseal Rat.mul Rat.add Rat.inv Rat.sub in
/-- C4 counterexample: on a gauge that already carries the momentum
`+1 on [0,5]`, adding an equal momentum and removing it again changes the
determination — the stale event-log entries survive the membership filter
(the momentum is still a member) and its velocity is double-counted. -/
theorem C4_counterexample :
    gaugeC4.determination = [(0, 0), (5, 5)] ∧
      ((gaugeC4.add_momentum momC4).bind fun g1 =>
          g1.remove_momentum momC4).toOption.map Gauge.determination =
        some [(0, 0), (5, 10)] := by
  exact ⟨by decide, by decide⟩

/-- C4 amended: for every gauge `g` and valid momentum `m` **not already
present in the momentum multiset**, `add_momentum m` followed by
`remove_momentum m` succeeds and leaves the determination equal to `g`'s —
`remove_momentum` does not eagerly delete `m`'s entries from the internal
event log, and the event walk filters entries whose momentum is no longer
a member of the multiset.  (When an equal momentum is already present the
membership filter keeps the stale entries and the determination changes,
as `C4_counterexample` shows.) -/
theorem C4_add_remove (g : Gauge) (m : Momentum)
    (hv : validMomentum m = true) (hm : m ∉ g.momenta) :
    ((g.add_momentum m).bind fun g1 =>
        g1.remove_momentum m).toOption.map Gauge.determination =
      some g.determination := by
  have hcf : g.momenta.contains m = false := by
    rw [← Bool.not_eq_true]
    simpa using hm
  unfold Gauge.add_momentum
  rw [if_pos hv]
  rw [Except.bind]
  unfold Gauge.remove_momentum
  rw [if_pos hv]
  have hmem : (insertMomentum m g.momenta).contains m = true := by
    simpa using mem_insertMomentum m g.momenta
  rw [hmem]
  rw [if_pos rfl]
  rw [Except.toOption, Option.map]
  rw [erase_insertMomentum m g.momenta hm]
  unfold Gauge.determination walkEventsL
  have hfilter :
      ((if m.until_ == XR.pinf then insertEvent (m.since, 1, m) g.events
        else insertEvent (m.until_, -1, m)
          (insertEvent (m.since, 1, m) g.events)).filter
        fun e => g.momenta.contains e.2.2) =
      g.events.filter fun e => g.momenta.contains e.2.2 := by
    by_cases hpinf : m.until_ == XR.pinf
    · rw [if_pos hpinf, filter_insertEvent _ _ hcf]
    · rw [if_neg hpinf, filter_insertEvent _ _ hcf,
        filter_insertEvent _ _ hcf]
  rw [hfilter]

set_option maxRecDepth 100000 in
unseal Rat.mul Rat.add Rat.inv Rat.sub in
/-- C4 witness: removing a fresh momentum from scenario A's base gauge
restores its determination. -/
theorem C4_witness :
    validMomentum momC4 = true ∧ momC4 ∉ (mkGauge 0 100 0).momenta ∧
      (((mkGauge 0 100 0).add_momentum momC4).bind fun g1 =>
          g1.remove_momentum momC4).toOption.map Gauge.determination =
        some (mkGauge 0 100 0).determination :=
  ⟨by decide, by decide, C4_add_remove (mkGauge 0 100 0) momC4 (by decide)
    (by decide)⟩

/-! ## Claim C5: `velocity` and the segment slopes -/

theorem sorted_get_lt {d : List (ℚ × ℚ)}
    (hs : List.Chain' (fun p q : ℚ × ℚ => p.1 < q.1) d) {i j : ℕ}
    {p q : ℚ × ℚ} (hi : d.get? i = some p) (hj : d.get? j = some q)
    (hij : i < j) : p.1 < q.1 := by
  haveI : IsTrans (ℚ × ℚ) (fun p q : ℚ × ℚ => p.1 < q.1) :=
    ⟨fun _ _ _ hab hbc => lt_trans hab hbc⟩
  rw [List.chain'_iff_pairwise, List.pairwise_iff_get] at hs
  obtain ⟨hi', hpi⟩ := List.get?_eq_some.mp hi
  obtain ⟨hj', hqj⟩ := List.get?_eq_some.mp hj
  have := hs ⟨i, hi'⟩ ⟨j, hj'⟩ hij
  rw [hpi, hqj] at this
  exact this

theorem bisectTimes_eq_of (t : ℚ) :
    ∀ (d : List (ℚ × ℚ)) (j : ℕ),
      (∀ k, k < j → ∀ r : ℚ × ℚ, d.get? k = some r → r.1 < t) →
      (∀ r : ℚ × ℚ, d.get? j = some r → ¬ r.1 < t) →
      j ≤ d.length → bisectTimes t d = j := by
  intro d
  induction d with
  | nil =>
      intro j _ _ hj
      simp at hj
      simp [bisectTimes, hj]
  | cons p rest ih =>
      intro j hlt hge hj
      cases j with
      | zero =>
          unfold bisectTimes
          rw [if_neg (hge p rfl)]
      | succ j' =>
          unfold bisectTimes
          rw [if_pos (hlt 0 (Nat.succ_pos j') p rfl)]
          rw [ih j' (fun k hk r hr => hlt (k + 1) (Nat.succ_lt_succ hk) r hr)
            (fun r hr => hge r hr) (by simpa using hj)]

/-- `_value_and_velocity` on a sorted determination, at a time inside (or
at the right end of) the segment from index `j` to `j+1`: binary search
lands on that segment. -/
theorem vvFromDet_segment {d : List (ℚ × ℚ)} {t : ℚ} {j : ℕ}
    {p q : ℚ × ℚ}
    (hs : List.Chain' (fun p q : ℚ × ℚ => p.1 < q.1) d)
    (hp : d.get? j = some p) (hq : d.get? (j + 1) = some q)
    (h1 : p.1 < t) (h2 : t ≤ q.1) :
    vvFromDet d t = ((Line.Segment p.1 q.1 p.2 q.2).getq t,
      (Line.Segment p.1 q.1 p.2 q.2).velocity) := by
  have hlen : j + 1 < d.length := (List.get?_eq_some.mp hq).1
  have hlen2 : ¬ d.length = 1 := by omega
  have hb : bisectTimes t d = j + 1 := by
    refine bisectTimes_eq_of t d (j + 1) ?_ ?_ (le_of_lt hlen)
    · intro k hk r hr
      rcases Nat.lt_or_ge k j with hkj | hkj
      · exact lt_trans (sorted_get_lt hs hr hp hkj) h1
      · have : k = j := by omega
        subst this
        rw [hp] at hr
        cases hr
        exact h1
    · intro r hr
      rw [hq] at hr
      cases hr
      exact not_lt.mpr h2
  unfold vvFromDet
  rw [if_neg hlen2, hb]
  rw [if_neg (Nat.succ_ne_zero j)]
  rw [hq]
  simp only [Nat.add_sub_cancel]
  rw [hp]

set_option maxRecDepth 100000 in
unseal Rat.mul Rat.add Rat.inv Rat.sub in
/-- C5 counterexample: `gaugeC5`'s determination has the vertex `(2, 2)`
shared by segments of slopes 1 and 2; `velocity(2)` returns 1, the slope
of the segment ending at 2, not the right-hand slope 2 the claim
states. -/
theorem C5_counterexample :
    gaugeC5.determination = [(0, 0), (2, 2), (4, 6)] ∧
      gaugeC5.velocity 2 = 1 ∧
      gaugeC5.velocity 2 ≠ ((6 : ℚ) - 2) / (4 - 2) := by
  exact ⟨by decide, by decide, by decide⟩

/-- C5 amended: for every well-formed gauge and query time `t` with
`t₁ < t ≤ t₂` for a consecutive determination vertex pair
`(t₁,v₁), (t₂,v₂)`, `velocity(t)` returns that segment's slope
`(v₂ − v₁)/(t₂ − t₁)`.  In particular, strictly inside a segment it is
that segment's slope, and at a vertex time shared by two segments it is
the **left-hand** slope — the slope of the segment that ends at `t`
(`bisect_left` lands on the vertex itself).  (At the first vertex's time
or earlier, and past the last vertex, the velocity is 0.) -/
theorem C5_velocity_segment (g : Gauge) (h : g.wfb = true) (t : ℚ) (j : ℕ)
    (p q : ℚ × ℚ) (hp : g.determination.get? j = some p)
    (hq : g.determination.get? (j + 1) = some q)
    (h1 : p.1 < t) (h2 : t ≤ q.1) :
    g.velocity t = (q.2 - p.2) / (q.1 - p.1) := by
  unfold Gauge.velocity
  rw [vvFromDet_segment (determination_sorted g h) hp hq h1 h2]
  rfl

set_option maxRecDepth 100000 in
unseal Rat.mul Rat.add Rat.inv Rat.sub in
/-- C5 witness: strictly inside the first segment of `gaugeC5`'s
determination the velocity is that segment's slope. -/
theorem C5_witness :
    gaugeC5.wfb = true ∧
      gaugeC5.determination.get? 0 = some (0, 0) ∧
      gaugeC5.determination.get? 1 = some (2, 2) ∧
      (0 : ℚ) < 1 ∧ (1 : ℚ) ≤ 2 ∧
      gaugeC5.velocity 1 = ((2 : ℚ) - 0) / (2 - 0) :=
  ⟨by decide, by decide, by decide, by decide, by decide,
    C5_velocity_segment gaugeC5 (by decide) 1 0 (0, 0) (2, 2) (by decide)
      (by decide) (by decide) (by decide)⟩

/-! ## Claims C6–C8: the `incr` policies -/

/-- `incr` with `over = clamp = false`, with the `let`-bindings inlined. -/
theorem incr_plain (g : Gauge) (delta t : ℚ) :
    g.incr delta false false t =
      (if delta > 0 ∧ g.get t + delta > g.get_max t then
        Except.error Err.outOfRange
      else if delta < 0 ∧ g.get t + delta < g.get_min t then
        Except.error Err.outOfRange
      else
        Except.ok (g.forget_past (g.get t + delta) t, g.get t + delta)) :=
  rfl

/-- `incr` with `clamp = true`, with the `let`-bindings inlined. -/
theorem incr_clamp_plain (g : Gauge) (delta t : ℚ) :
    g.incr delta false true t =
      Except.ok
        (g.forget_past
          (if delta > 0 ∧ g.get t + delta > g.get_max t then
            qmax (g.get t) (g.get_max t)
          else if delta < 0 ∧ g.get t + delta < g.get_min t then
            qmin (g.get t) (g.get_min t)
          else g.get t + delta) t,
        if delta > 0 ∧ g.get t + delta > g.get_max t then
          qmax (g.get t) (g.get_max t)
        else if delta < 0 ∧ g.get t + delta < g.get_min t then
          qmin (g.get t) (g.get_min t)
        else g.get t + delta) :=
  rfl

/-- The plain `incr` raises exactly on the directional bound check. -/
theorem incr_error_iff (g : Gauge) (delta t : ℚ) :
    g.incr delta false false t = Except.error Err.outOfRange ↔
      (delta > 0 ∧ g.get t + delta > g.get_max t) ∨
      (delta < 0 ∧ g.get t + delta < g.get_min t) := by
  rw [incr_plain]
  by_cases h1 : delta > 0 ∧ g.get t + delta > g.get_max t
  · rw [if_pos h1]
    exact iff_of_true rfl (Or.inl h1)
  · rw [if_neg h1]
    by_cases h2 : delta < 0 ∧ g.get t + delta < g.get_min t
    · rw [if_pos h2]
      exact iff_of_true rfl (Or.inr h2)
    · rw [if_neg h2]
      exact iff_of_false (by simp) (not_or.mpr ⟨h1, h2⟩)

/-- When neither directional check fires, the plain `incr` succeeds and
rebases to `(t, get(t) + δ)` through `forget_past`. -/
theorem incr_ok_of_not (g : Gauge) (delta t : ℚ)
    (h1 : ¬ (delta > 0 ∧ g.get t + delta > g.get_max t))
    (h2 : ¬ (delta < 0 ∧ g.get t + delta < g.get_min t)) :
    g.incr delta false false t =
      Except.ok (g.forget_past (g.get t + delta) t, g.get t + delta) := by
  rw [incr_plain, if_neg h1, if_neg h2]

/-- Counting through a `filter`: an element passing the predicate keeps its
multiplicity, one failing it is gone. -/
theorem count_filter_eq {α : Type} [DecidableEq α] (p : α → Bool) (a : α)
    (l : List α) :
    (l.filter p).count a = if p a = true then l.count a else 0 := by
  by_cases h : p a = true
  · rw [if_pos h, List.count_filter h]
  · rw [if_neg h, List.count_eq_zero]
    intro hmem
    exact h (List.of_mem_filter hmem)

set_option maxRecDepth 100000 in
unseal Rat.mul Rat.add Rat.inv Rat.sub in
/-- C6 counterexample: on `gaugeC6` the value `12` already exceeds the
maximum `10`, yet `incr(0, at=0)` does not raise — the new value
`12 ∉ [0, 10]` and still the call returns `ok` — and the momentum with
`until = 0 ≤ t = 0` is **not** dropped by the rebasing. -/
theorem C6_counterexample :
    gaugeC6.get 0 = 12 ∧ gaugeC6.get_max 0 = 10 ∧ gaugeC6.get_min 0 = 0 ∧
      gaugeC6.incr 0 false false 0 =
        Except.ok (gaugeC6.forget_past 12 0, 12) ∧
      momC6.until_ = XR.fin 0 ∧
      (gaugeC6.forget_past 12 0).momenta = [momC6] := by
  refine ⟨by decide, by decide, by decide, by decide, by decide, by decide⟩

/-- C6 amended: `incr(δ, over=False, clamp=False, at=t)` raises `OutOfRange`
exactly when the **directional** check fires — `δ > 0` and
`get(t)+δ > max(t)`, or `δ < 0` and `get(t)+δ < min(t)` — not whenever the
new value lies outside `[min(t), max(t)]`.  When it does not raise it
returns `get(t)+δ`, rebases the gauge to `(t, get(t)+δ)` keeping the event
log and both bounds, and drops exactly the momenta with
`-inf < until < t` — a momentum with `until = t` (or `until = -inf`) is
retained, so the claim's `until ≤ t` is also wrong. -/
theorem C6_incr_policy (g : Gauge) (delta t : ℚ) :
    (g.incr delta false false t = Except.error Err.outOfRange ↔
      (delta > 0 ∧ g.get t + delta > g.get_max t) ∨
      (delta < 0 ∧ g.get t + delta < g.get_min t)) ∧
    ∀ g' v, g.incr delta false false t = Except.ok (g', v) →
      v = g.get t + delta ∧ g'.base = (t, v) ∧ g'.events = g.events ∧
        g'.maxl = g.maxl ∧ g'.minl = g.minl ∧
        ∀ m : Momentum, g'.momenta.count m =
          if XR.ltb XR.ninf m.until_ && XR.ltb m.until_ (XR.fin t) then 0
          else g.momenta.count m := by
  refine ⟨incr_error_iff g delta t, ?_⟩
  intro g' v h
  by_cases h1 : delta > 0 ∧ g.get t + delta > g.get_max t
  · rw [incr_plain, if_pos h1] at h
    exact absurd h (by simp)
  by_cases h2 : delta < 0 ∧ g.get t + delta < g.get_min t
  · rw [incr_plain, if_neg h1, if_pos h2] at h
    exact absurd h (by simp)
  rw [incr_ok_of_not g delta t h1 h2] at h
  injection h with h'
  rw [Prod.mk.injEq] at h'
  obtain ⟨hg, hv⟩ := h'
  subst hv
  subst hg
  refine ⟨rfl, rfl, rfl, rfl, rfl, ?_⟩
  intro m
  show (g.momenta.filter fun m' =>
      !(XR.ltb XR.ninf m'.until_ && XR.ltb m'.until_ (XR.fin t))).count m = _
  rw [count_filter_eq]
  cases hb : XR.ltb XR.ninf m.until_ && XR.ltb m.until_ (XR.fin t)
  · simp [hb]
  · simp [hb]

set_option maxRecDepth 100000 in
unseal Rat.mul Rat.add Rat.inv Rat.sub in
/-- C6 witness: on `gaugeC6`, `incr(-1, at=0)` succeeds with value `11` and
the momentum `momC6` (whose `until` equals the rebasing time `0`) keeps its
multiplicity `1`. -/
theorem C6_witness :
    gaugeC6.incr (-1) false false 0 =
        Except.ok (gaugeC6.forget_past 11 0, 11) ∧
      (gaugeC6.forget_past 11 0).momenta.count momC6 = 1 := by
  have h : gaugeC6.incr (-1) false false 0 =
      Except.ok (gaugeC6.forget_past 11 0, 11) := by decide
  refine ⟨h, ?_⟩
  have h2 := (C6_incr_policy gaugeC6 (-1) 0).2 (gaugeC6.forget_past 11 0) 11 h
  rw [h2.2.2.2.2.2 momC6]
  decide

set_option maxRecDepth 100000 in
unseal Rat.mul Rat.add Rat.inv Rat.sub in
/-- C7 counterexample: the source never validates `min ≤ max`, and on
`gaugeC7` (`max = 5`, `min = 100`) the positive increment `6` leaves the
result `6` below `min(0) = 100` and is nevertheless rejected — the check
`δ > 0 ∧ get+δ > max` fires. -/
theorem C7_counterexample :
    (0 : ℚ) < 6 ∧ gaugeC7.get 0 + 6 < gaugeC7.get_min 0 ∧
      gaugeC7.incr 6 false false 0 = Except.error Err.outOfRange := by
  refine ⟨by decide, by decide, by decide⟩

/-- C7 amended: with `over = clamp = false`, `incr(δ, at=t)` raises exactly
when `δ > 0` and `get(t)+δ > max(t)`, or `δ < 0` and `get(t)+δ < min(t)`.
In particular `δ = 0` never raises even when the current value is out of
range; a positive `δ` whose result does not exceed `max(t)` is accepted —
even when the result is still below `min(t)` — and symmetrically a
negative `δ` whose result is not below `min(t)` is accepted even when the
result is still above `max(t)`; the accepted call rebases the gauge to the
(possibly out-of-range) value `get(t)+δ`.  (The claim's unconditional
"result below `min(t)` is accepted" fails when `max(t) < min(t)`, which
the source never rules out.) -/
theorem C7_incr_directional (g : Gauge) (delta t : ℚ) :
    (g.incr delta false false t = Except.error Err.outOfRange ↔
      (delta > 0 ∧ g.get t + delta > g.get_max t) ∨
      (delta < 0 ∧ g.get t + delta < g.get_min t)) ∧
    (delta = 0 →
      g.incr delta false false t =
        Except.ok (g.forget_past (g.get t + delta) t, g.get t + delta)) ∧
    (0 < delta → g.get t + delta ≤ g.get_max t →
      g.incr delta false false t =
        Except.ok (g.forget_past (g.get t + delta) t, g.get t + delta)) ∧
    (delta < 0 → g.get_min t ≤ g.get t + delta →
      g.incr delta false false t =
        Except.ok (g.forget_past (g.get t + delta) t, g.get t + delta)) := by
  refine ⟨incr_error_iff g delta t, ?_, ?_, ?_⟩
  · intro hd
    exact incr_ok_of_not g delta t (fun hc => by linarith [hc.1])
      (fun hc => by linarith [hc.1])
  · intro hd hle
    exact incr_ok_of_not g delta t (fun hc => by linarith [hc.2])
      (fun hc => by linarith [hc.1])
  · intro hd hle
    exact incr_ok_of_not g delta t (fun hc => by linarith [hc.1])
      (fun hc => by linarith [hc.2])

set_option maxRecDepth 100000 in
unseal Rat.mul Rat.add Rat.inv Rat.sub in
/-- C7 witness: on scenario A's base gauge `Gauge(5, 10, at=0)`,
`incr(-1, at=0)` is accepted and rebases to `(0, 4)`. -/
theorem C7_witness :
    (mkGauge 5 10 0).incr (-1) false false 0 =
      Except.ok ((mkGauge 5 10 0).forget_past 4 0, 4) := by
  have h := (C7_incr_directional (mkGauge 5 10 0) (-1) 0).2.2.2 (by decide)
    (by decide)
  rw [h]
  decide

/-- C8: `incr(δ, clamp=True, at=t)` never raises; the resulting value is
`max(get(t), max(t))` when `δ > 0` and `get(t)+δ` exceeds `max(t)`,
`min(get(t), min(t))` when `δ < 0` and `get(t)+δ` falls below `min(t)`,
and `get(t)+δ` otherwise; a clamped increase never decreases the value and
a clamped decrease never increases it; the gauge is rebased to the
resulting value through `forget_past`. -/
theorem C8_incr_clamp (g : Gauge) (delta t : ℚ) :
    (∃ r, g.incr delta false true t = Except.ok r) ∧
    ∀ g' v, g.incr delta false true t = Except.ok (g', v) →
      v = (if delta > 0 ∧ g.get t + delta > g.get_max t then
            qmax (g.get t) (g.get_max t)
          else if delta < 0 ∧ g.get t + delta < g.get_min t then
            qmin (g.get t) (g.get_min t)
          else g.get t + delta) ∧
        g' = g.forget_past v t ∧ (0 < delta → g.get t ≤ v) ∧
        (delta < 0 → v ≤ g.get t) := by
  have hplain := incr_clamp_plain g delta t
  refine ⟨⟨_, hplain⟩, ?_⟩
  intro g' v h
  rw [hplain] at h
  injection h with h'
  rw [Prod.mk.injEq] at h'
  obtain ⟨hg, hv⟩ := h'
  subst hv
  refine ⟨rfl, hg.symm, ?_, ?_⟩
  · intro hd
    by_cases hc1 : delta > 0 ∧ g.get t + delta > g.get_max t
    · rw [if_pos hc1]
      exact qmax_le_left _ _
    · rw [if_neg hc1]
      by_cases hc2 : delta < 0 ∧ g.get t + delta < g.get_min t
      · exact absurd hd (by linarith [hc2.1])
      · rw [if_neg hc2]
        linarith
  · intro hd
    by_cases hc1 : delta > 0 ∧ g.get t + delta > g.get_max t
    · exact absurd hd (by linarith [hc1.1])
    · rw [if_neg hc1]
      by_cases hc2 : delta < 0 ∧ g.get t + delta < g.get_min t
      · rw [if_pos hc2]
        exact qmin_le_left _ _
      · rw [if_neg hc2]
        linarith

set_option maxRecDepth 100000 in
unseal Rat.mul Rat.add Rat.inv Rat.sub in
/-- C8 witness: on `Gauge(5, 10, at=0)`, `incr(7, clamp=True, at=0)`
saturates at the maximum `10`, which is at least the previous value `5`. -/
theorem C8_witness :
    (mkGauge 5 10 0).incr 7 false true 0 =
        Except.ok ((mkGauge 5 10 0).forget_past 10 0, 10) ∧
      (mkGauge 5 10 0).get 0 ≤ 10 := by
  have h : (mkGauge 5 10 0).incr 7 false true 0 =
      Except.ok ((mkGauge 5 10 0).forget_past 10 0, 10) := by decide
  refine ⟨h, ?_⟩
  have h2 := (C8_incr_clamp (mkGauge 5 10 0) 7 0).2
    ((mkGauge 5 10 0).forget_past 10 0) 10 h
  exact h2.2.2.1 (by decide)

/-! ## Claim C9: `whenever` and `when` -/

/-- The source's `whenever` generator equals the specification's wording of
the crossing sequence (`wheneverSpec`): the condition is the same half-open
test and the emitted times agree up to commutativity of the
multiplication. -/
theorem whenever_eq_spec (g : Gauge) (value : ℚ) :
    g.whenever value = wheneverSpec g.determination value := by
  unfold Gauge.whenever wheneverSpec
  rcases hdet : g.determination with _ | ⟨⟨ft, fv⟩, rest⟩
  · rfl
  · show (if fv = value then [ft] else []) ++
        (((ft, fv) :: rest).zip rest).filterMap (fun pq =>
          if (pq.1.2 < value ∧ value ≤ pq.2.2) ∨
              (pq.1.2 > value ∧ value ≥ pq.2.2) then
            some (pq.1.1 + (pq.2.1 - pq.1.1) *
              ((value - pq.1.2) / (pq.2.2 - pq.1.2)))
          else none) =
      (if fv = value then [ft] else []) ++
        (((ft, fv) :: rest).zip rest).filterMap (fun pq =>
          crossingOfPair value pq.1 pq.2)
    congr 1
    congr 1
    funext pq
    unfold crossingOfPair
    split_ifs with h
    · congr 1
      ring
    · rfl

/-- The enumerate-and-return loop of `when`, begun at index `x ≤ after`,
returns the element `after - x` positions further in, or raises
`Unreachable` past the end. -/
theorem whenFrom_spec (after : ℕ) :
    ∀ (l : List ℚ) (x : ℕ), x ≤ after →
      whenFrom x after l =
        (l.get? (after - x)).elim (Except.error Err.unreachable)
          Except.ok := by
  intro l
  induction l with
  | nil =>
      intro x _
      rfl
  | cons a rest ih =>
      intro x hx
      unfold whenFrom
      by_cases hxa : x = after
      · subst hxa
        rw [if_pos rfl, Nat.sub_self]
        rfl
      · rw [if_neg hxa, ih (x + 1) (by omega)]
        have h : after - x = (after - (x + 1)) + 1 := by omega
        rw [h]
        rfl

/-- `when(value, after)` returns the `(after+1)`-th element of the
`whenever` stream, or raises `Unreachable` past its end. -/
theorem when_spec (g : Gauge) (value : ℚ) (after : ℕ) :
    g.when value after =
      ((g.whenever value).get? after).elim (Except.error Err.unreachable)
        Except.ok := by
  unfold Gauge.when
  rw [whenFrom_spec after (g.whenever value) 0 (Nat.zero_le after),
    Nat.sub_zero]

/-- C9: `whenever(goal)` yields first the first vertex's time when its
value equals the goal, and then, for each consecutive vertex pair
`(t₁,v₁), (t₂,v₂)` with `v₁ < goal ≤ v₂` or `v₁ > goal ≥ v₂`, the
interpolated time `t₁ + (t₂−t₁)·(goal−v₁)/(v₂−v₁)` (the sequence
`wheneverSpec`, worded from the spec); `when(goal, after=n)` returns the
`(n+1)`-th element of that sequence and raises `Unreachable` exactly when
the sequence has at most `n` elements. -/
theorem C9_when_crossings (g : Gauge) (goal : ℚ) (n : ℕ) :
    g.whenever goal = wheneverSpec g.determination goal ∧
      (g.when goal n = Except.error Err.unreachable ↔
        (g.whenever goal).length ≤ n) ∧
      ∀ t : ℚ, g.when goal n = Except.ok t ↔
        (g.whenever goal).get? n = some t := by
  refine ⟨whenever_eq_spec g goal, ?_, ?_⟩
  · rw [when_spec]
    cases hg : (g.whenever goal).get? n with
    | none =>
        exact iff_of_true rfl (List.get?_eq_none.mp hg)
    | some t =>
        refine iff_of_false (by simp [Option.elim]) fun hlen => ?_
        rw [List.get?_eq_none.mpr hlen] at hg
        cases hg
  · intro t
    rw [when_spec]
    cases hg : (g.whenever goal).get? n with
    | none => simp [Option.elim]
    | some u => simp [Option.elim]

set_option maxRecDepth 100000 in
unseal Rat.mul Rat.add Rat.inv Rat.sub in
/-- C9 witness: scenario D's gauge crosses the goal `3` at times
`[3, 5, 7, 9]`; `when(3)` returns the first crossing `3` and
`when(3, after=4)` raises `Unreachable`. -/
theorem C9_witness :
    gaugeD.whenever 3 = wheneverSpec gaugeD.determination 3 ∧
      gaugeD.when 3 0 = Except.ok 3 ∧
      gaugeD.when 3 4 = Except.error Err.unreachable := by
  refine ⟨(C9_when_crossings gaugeD 3 0).1, ?_, ?_⟩
  · exact ((C9_when_crossings gaugeD 3 0).2.2 3).mpr (by decide)
  · exact (C9_when_crossings gaugeD 3 4).2.1.mpr (by decide)

/-! ## Claim C10: `remove_momentum` -/

/-- C10: for every gauge and valid momentum `m`, `remove_momentum m` raises
`NotFound` exactly when no equal momentum is present; when one is present
it succeeds and removes exactly one equal entry — `m`'s multiplicity drops
by one, every other momentum keeps its multiplicity — and the event log,
the base and both bounds are unchanged.  (In the error case the gauge is
untouched; the cached determination is merely invalidated, which has no
pure counterpart — the model's determination is recomputed from the
fields, which this theorem shows are as described.) -/
theorem C10_remove_momentum (g : Gauge) (m : Momentum)
    (hv : validMomentum m = true) :
    (g.remove_momentum m = Except.error Err.notFound ↔ m ∉ g.momenta) ∧
      (m ∈ g.momenta → ∃ g', g.remove_momentum m = Except.ok g') ∧
      ∀ g', g.remove_momentum m = Except.ok g' →
        g'.momenta.count m + 1 = g.momenta.count m ∧
          (∀ m' : Momentum, m' ≠ m →
            g'.momenta.count m' = g.momenta.count m') ∧
          g'.events = g.events ∧ g'.base = g.base ∧ g'.maxl = g.maxl ∧
          g'.minl = g.minl := by
  unfold Gauge.remove_momentum
  rw [if_pos hv]
  by_cases hm : m ∈ g.momenta
  · have hc : g.momenta.contains m = true := by simpa using hm
    rw [if_pos hc]
    refine ⟨iff_of_false (by simp) fun hn => hn hm, fun _ => ⟨_, rfl⟩, ?_⟩
    intro g' h
    injection h with h'
    subst h'
    refine ⟨?_, ?_, rfl, rfl, rfl, rfl⟩
    · show (g.momenta.erase m).count m + 1 = g.momenta.count m
      rw [List.count_erase_self]
      have hpos : 0 < g.momenta.count m := List.count_pos_iff.mpr hm
      omega
    · intro m' hne
      show (g.momenta.erase m).count m' = g.momenta.count m'
      exact List.count_erase_of_ne hne g.momenta
  · have hc : ¬ g.momenta.contains m = true := by simpa using hm
    rw [if_neg hc]
    exact ⟨iff_of_true rfl hm, fun hmem => absurd hmem hm,
      fun g' h => absurd h (by simp)⟩

set_option maxRecDepth 100000 in
unseal Rat.mul Rat.add Rat.inv Rat.sub in
/-- C10 witness: scenario C's gauge carries the momentum `+1 on [0,4]`, so
removing it succeeds. -/
theorem C10_witness :
    ∃ g', gaugeC.remove_momentum ⟨1, XR.fin 0, XR.fin 4⟩ = Except.ok g' :=
  (C10_remove_momentum gaugeC ⟨1, XR.fin 0, XR.fin 4⟩ (by decide)).2.1
    (by decide)

end GaugeModel
